import Mathlib

/-!
Verification development for the RA-Crawler repository.

The Python modules under `src/api/` are shallowly embedded as executable
Lean definitions over `List Char` (Python `str`), and the spec's claims
about them are settled as theorems.  Embedded modules:

  * `backfill_meeting_ids.py` — venue-name canonicalisation and the
    Punting-Form (PF) meeting-id reconciliation;
  * `races.py`               — the sibling PF fetch (same raise-on-error shape);
  * `program_parser.py`      — race-program block segmentation and field
    extraction;
  * `ra_harvest.py`          — row normalisation on top of the parser;
  * `parser.py`              — the calendar pagination walker.

Regular-expression searches are embedded as hand-written scanners that
reproduce Python `re` leftmost-match semantics (greedy/lazy repetition and
ordered alternation) for the concrete patterns the source compiles.
-/

set_option maxRecDepth 100000

namespace RA

/-- Python strings are embedded as lists of characters. -/
abbrev Str := List Char

/-- Python `\s` / `str.strip()` whitespace, restricted to the ASCII range
(the pages handled here are ASCII after `_clean` replaces the odd spaces). -/
def isSpaceChar (c : Char) : Bool :=
  c = ' ' || c = '\t' || c = '\n' || c = '\r' || c = '\x0b' || c = '\x0c'

/-- Python `\w` on ASCII text: letters, digits and underscore. -/
def isWordChar (c : Char) : Bool :=
  c.isAlphanum || c = '_'

/-- Python `str.lower()` (ASCII). -/
def lowerStr (s : Str) : Str := s.map Char.toLower

/-- Python `str.upper()` (ASCII). -/
def upperStr (s : Str) : Str := s.map Char.toUpper

/-- Python `str.strip()`. -/
def stripStr (s : Str) : Str :=
  ((s.dropWhile isSpaceChar).reverse.dropWhile isSpaceChar).reverse

/-- Python `str.split()` (split on whitespace runs, dropping empties),
as a worker with an accumulator for the word being read. -/
def wordsAux : Str → Str → List Str
  | [], acc => if acc.isEmpty then [] else [acc.reverse]
  | c :: rest, acc =>
      if isSpaceChar c then
        if acc.isEmpty then wordsAux rest [] else acc.reverse :: wordsAux rest []
      else wordsAux rest (c :: acc)

/-- Python `str.split()`. -/
def wordsOf (s : Str) : List Str := wordsAux s []

/-- Python `" ".join(parts)`. -/
def joinSpace : List Str → Str
  | [] => []
  | [w] => w
  | w :: ws => w ++ ' ' :: joinSpace ws

/-- Python `" ".join(s.split())`; on an already-stripped string this also
equals `re.sub(r"\s+", " ", s)`. -/
def collapseWS (s : Str) : Str := joinSpace (wordsOf s)

/-- Worker for `replaceAllStr`; the fuel only bounds the recursion
(`length + 1` is always enough since every step consumes a character). -/
def replaceAllAux (pat rep : Str) : Nat → Str → Str
  | 0, s => s
  | _ + 1, [] => []
  | fuel + 1, c :: rest =>
      if pat.isPrefixOf (c :: rest) && !pat.isEmpty then
        rep ++ replaceAllAux pat rep fuel (rest.drop (pat.length - 1))
      else
        c :: replaceAllAux pat rep fuel rest

/-- Python `str.replace(pat, rep)` for a non-empty `pat`: every
non-overlapping occurrence, scanning left to right.  (The sources never
call `replace` with an empty pattern; for safety an empty pattern replaces
nothing.) -/
def replaceAllStr (pat rep s : Str) : Str := replaceAllAux pat rep (s.length + 1) s

/-- Python `pat in s` (substring containment). -/
def containsStr (pat : Str) : Str → Bool
  | [] => pat.isEmpty
  | s@(_ :: rest) => pat.isPrefixOf s || containsStr pat rest

/-- Parse a run of decimal digits into a `Nat`. -/
def parseNatDigits (ds : Str) : Nat :=
  ds.foldl (fun acc c => acc * 10 + (c.toNat - '0'.toNat)) 0

end RA

namespace RA

/-! ## `backfill_meeting_ids.py` — canonicalisation -/

/-- The `(short, full)` start-of-name replacements of
`_normalise_track_name` (applied to the first that matches, then stop). -/
def trackAbbrevs : List (Str × Str) :=
  [("mt ".data, "mount ".data), ("mt. ".data, "mount ".data),
   ("st ".data, "saint ".data), ("st. ".data, "saint ".data)]

/-- Apply the first matching start-of-name replacement (the Python loop
`for short, full in replacements: if s.startswith(short): ...; break`). -/
def applyTrackAbbrev (s : Str) : Str :=
  match trackAbbrevs.find? (fun p => p.1.isPrefixOf s) with
  | some (short, full) => full ++ s.drop short.length
  | none => s

/-- `_normalise_track_name` (backfill_meeting_ids.py lines 29-59):
strip, lowercase, collapse whitespace, then expand a leading
Mt/Mt./St/St. abbreviation. -/
def normalise_track_name (raw : Str) : Str :=
  if raw.isEmpty then []
  else applyTrackAbbrev (collapseWS (lowerStr (stripStr raw)))

/-- The sponsor substrings stripped by `canonical_track_name`
(substring replacement, in this order). -/
def sponsorWords : List Str :=
  ["sportsbet".data, "ladbrokes".data, "bet365".data, "picklebet".data,
   "thomas farms".data, "aquis park".data, "aquis".data, "tabtouch".data,
   "tab ".data]

/-- The generic fluff words stripped by `canonical_track_name`
(whole-token-ish replacement: middle `" w "`, end `" w"`, start `"w "`). -/
def junkWords : List Str :=
  ["rc".data, "racecourse".data, "raceway".data, "race club".data,
   "race club inc".data, "race club incorporated".data, "park".data, "gh".data]

/-- One iteration of the junk-word loop of `canonical_track_name`:
replace `" w "` with `" "` everywhere, then strip a trailing `" w"`,
then a leading `"w "`. -/
def stripJunkWord (s : Str) (w : Str) : Str :=
  let s := replaceAllStr (' ' :: w ++ [' ']) [' '] s
  let s := if (' ' :: w).isSuffixOf s then s.take (s.length - (w.length + 1)) else s
  if (w ++ [' ']).isPrefixOf s then s.drop (w.length + 1) else s

/-- `canonical_track_name` (backfill_meeting_ids.py lines 89-170):
normalise, map `-,/` to spaces, strip sponsor substrings and junk
tokens, collapse whitespace and special-case the Southside names. -/
def canonical_track_name (raw : Str) : Str :=
  if raw.isEmpty then []
  else
    let s := normalise_track_name raw
    if s.isEmpty then []
    else
      let s := s.map (fun c => if c = '-' || c = ',' || c = '/' then ' ' else c)
      let s := sponsorWords.foldl (fun s sp => replaceAllStr sp [] s) s
      let s := junkWords.foldl stripJunkWord s
      let s := collapseWS s
      if "southside cranbourne".data.isPrefixOf s then "cranbourne".data
      else if "southside pakenham".data.isPrefixOf s then "pakenham".data
      else s

/-! ## `backfill_meeting_ids.py` — PF meeting map and resolution -/

/-- One element of the PF `payLoad` list: the nested `track` object's
`state` and `name` (absent keys and the `or {}` / `or ""` defaults are
modelled with `Option`), plus the meeting's `meetingId`. -/
structure PFMeeting where
  trackState : Option Str
  trackName : Option Str
  meetingId : Option Str
deriving DecidableEq

/-- Python `x or ""` on an optional string. -/
def orEmpty : Option Str → Str
  | none => []
  | some s => s

/-- `AUS_STATES` (backfill_meeting_ids.py line 23). -/
def AUS_STATES : List Str :=
  ["NSW".data, "VIC".data, "QLD".data, "SA".data, "WA".data, "TAS".data,
   "NT".data, "ACT".data]

/-- The PF map keyed by `(state, canonical name)`, as a key/value list. -/
abbrev PFMap := List ((Str × Str) × Str)

/-- Python dict assignment `pf_map[key] = v`: overwrite an existing entry,
otherwise append. -/
def mapInsert : PFMap → (Str × Str) → Str → PFMap
  | [], k, v => [(k, v)]
  | (k', v') :: t, k, v =>
      if k' = k then (k, v) :: t else (k', v') :: mapInsert t k v

/-- Python `pf_map.get(key)`. -/
def mapGet : PFMap → (Str × Str) → Option Str
  | [], _ => none
  | (k', v') :: t, k => if k' = k then some v' else mapGet t k

/-- The body of the `for m in payload` loop of `_fetch_pf_meetings_for_date`
(backfill_meeting_ids.py lines 206-217): skip non-AUS states and falsy
meeting ids, key by `(state, canonical_track_name(name))`. -/
def buildPFMapStep (acc : PFMap) (m : PFMeeting) : PFMap :=
  let state := upperStr (orEmpty m.trackState)
  if state ∈ AUS_STATES then
    match m.meetingId with
    | none => acc
    | some mid =>
        if mid.isEmpty then acc
        else mapInsert acc (state, canonical_track_name (orEmpty m.trackName)) mid
  else acc

/-- The `pf_map` built from one PF `payLoad` list. -/
def buildPFMap (payload : List PFMeeting) : PFMap :=
  payload.foldl buildPFMapStep []

/-- One venue's resolution in `backfill` (backfill_meeting_ids.py lines
273 and 311-314): uppercase the DB state, canonicalise the track and look
the pair up in `pf_map`; `None` means the venue is left without a meeting
id (the debug branch prints a WARN and the row is skipped). -/
def resolveMeetingId (pfMap : PFMap) (state track : Str) : Option Str :=
  mapGet pfMap (upperStr state, canonical_track_name track)

/-- Whether a PF payload entry survives the `buildPFMapStep` filters. -/
def pfEntryKept (m : PFMeeting) : Prop :=
  upperStr (orEmpty m.trackState) ∈ AUS_STATES ∧
    ∃ mid, m.meetingId = some mid ∧ mid ≠ []

instance (m : PFMeeting) : Decidable (pfEntryKept m) := by
  unfold pfEntryKept
  exact instDecidableAnd

/-- The `(state, canonical name)` key a kept payload entry contributes. -/
def pfEntryKey (m : PFMeeting) : Str × Str :=
  (upperStr (orEmpty m.trackState), canonical_track_name (orEmpty m.trackName))

/-! ## Spec-modelled reconciliation tiers.

Modelled from the spec: §4.3 describes a three-tier matching cascade
(exact raw-name lookup, canonical lookup, fuzzy token-overlap scoring
with ambiguity rejection).  The source (`backfill_meeting_ids.py`,
`races.py`) implements only the canonical lookup, so the exact and fuzzy
tiers below are written from the spec's words in order to state claim C1
against the code. -/

/-- Modelled from the spec: tier 1, "Exact match: `(region, lowercased raw
name)` against the provider list's raw names". -/
def exact_match_spec (entries : List PFMeeting) (state track : Str) : Option Str :=
  match entries.find? (fun m =>
      pfEntryKept m &&
      upperStr (orEmpty m.trackState) = upperStr state &&
      lowerStr (orEmpty m.trackName) = lowerStr track) with
  | some m => m.meetingId
  | none => none

/-- The distinct whitespace tokens of a canonical name. -/
def tokenSet (s : Str) : List Str := (wordsOf s).dedup

/-- Modelled from the spec: the token-overlap score, "the size of the
intersection between the local canonical name's token set and each
candidate's token set". -/
def overlapScore (localName candName : Str) : Nat :=
  ((tokenSet localName).filter (fun t => t ∈ tokenSet candName)).length

/-- Modelled from the spec: tier 3, fuzzy matching "among provider entries
sharing the region": accept the single candidate whose score is strictly
greater than every other candidate's score (and positive), otherwise
report ambiguous / no match as `none`. -/
def fuzzy_match_spec (entries : List PFMeeting) (state track : Str) : Option Str :=
  let localName := canonical_track_name track
  let cands := entries.filter (fun m =>
    pfEntryKept m && upperStr (orEmpty m.trackState) = upperStr state)
  let scored := cands.map (fun m =>
    (overlapScore localName (canonical_track_name (orEmpty m.trackName)), m))
  match scored.find? (fun p =>
      0 < p.1 && (scored.filter (fun q => p.1 ≤ q.1)).length = 1) with
  | some p => p.2.meetingId
  | none => none

/-- Modelled from the spec: the full three-tier cascade of §4.3 ("first
tier that yields a match wins"). -/
def tiered_resolve_spec (entries : List PFMeeting) (state track : Str) : Option Str :=
  match exact_match_spec entries state track with
  | some mid => some mid
  | none =>
      match mapGet (buildPFMap entries) (upperStr state, canonical_track_name track) with
      | some mid => some mid
      | none => fuzzy_match_spec entries state track

/-! ## `backfill_meeting_ids.py` / `races.py` — the PF fetch -/

/-- The PF meetings-list HTTP response, reduced to what
`_fetch_pf_meetings_for_date` inspects: the status code and the decoded
`payLoad` list (`data.get("payLoad") or []`). -/
structure PFResponse where
  status : Nat
  payload : List PFMeeting
deriving DecidableEq

/-- What the fetch produces: the built map, or the `httpx.HTTPStatusError`
that `resp.raise_for_status()` throws. -/
inductive FetchOutcome where
  | ok (pfMap : PFMap)
  | httpError (status : Nat)
deriving DecidableEq

/-- `_fetch_pf_meetings_for_date` (backfill_meeting_ids.py lines 185-223)
on an already-received response: `raise_for_status` raises on any
non-2xx status (httpx), otherwise the meeting map is built from the
payload — an empty payload just yields the empty map. -/
def fetch_pf_meetings (resp : PFResponse) : FetchOutcome :=
  if 200 ≤ resp.status ∧ resp.status < 300 then .ok (buildPFMap resp.payload)
  else .httpError resp.status

end RA

namespace RA

/-! ## Scanner infrastructure for the compiled regexes

Each Python regex used by `program_parser.py` / `ra_harvest.py` is embedded
as a hand-written scanner.  `searchRE` reproduces `re.search`: try a match
at every position from the left, remembering the previous character so the
`\b` word-boundary assertions can be tested. -/

/-- Case-insensitive literal: consume `pat` (as `re.I` does) and return the
rest of the text, or `none`. -/
def ciEq (a b : Char) : Bool := a.toLower = b.toLower

/-- Consume a literal case-insensitively, returning the remaining text. -/
def litCI : Str → Str → Option Str
  | [], s => some s
  | _ :: _, [] => none
  | p :: ps, c :: cs => if ciEq p c then litCI ps cs else none

/-- `\b` holds before a word character when the previous character is
absent or not a word character. -/
def prevOkWB : Option Char → Bool
  | none => true
  | some c => !isWordChar c

/-- `\b` holds after a word character when the next character is absent or
not a word character. -/
def headNonWord : Str → Bool
  | [] => true
  | c :: _ => !isWordChar c

/-- `\b` holds after a non-word character only when the next character is a
word character. -/
def headIsWord : Str → Bool
  | [] => false
  | c :: _ => isWordChar c

/-- `\s+`: one whitespace character then any further run. -/
def wsPlus : Str → Option Str
  | c :: rest => if isSpaceChar c then some (rest.dropWhile isSpaceChar) else none
  | [] => none

/-- `re.search` driver: try `matchAt` at each position left to right,
passing the previous character for boundary tests. -/
def searchAux {α : Type} (matchAt : Option Char → Str → Option α) :
    Option Char → Str → Option α
  | prev, [] => matchAt prev []
  | prev, s@(c :: rest) => matchAt prev s <|> searchAux matchAt (some c) rest

/-- `re.search` over a whole string. -/
def searchRE {α : Type} (matchAt : Option Char → Str → Option α) (s : Str) : Option α :=
  searchAux matchAt none s

/-! ## `program_parser.py` — `_clean` -/

/-- The named HTML entities recognised by the embedding of
`html.unescape` (the subset occurring on the crawled pages; numeric
`&#N;` references are handled generically). -/
def namedEntities : List (Str × Char) :=
  [("amp;".data, '&'), ("lt;".data, '<'), ("gt;".data, '>'),
   ("quot;".data, '"'), ("apos;".data, '\''), ("nbsp;".data, Char.ofNat 0xA0)]

/-- Decode one entity body (the text after `&`). -/
def decEntity (rest : Str) : Option (Char × Str) :=
  match rest with
  | '#' :: r =>
      let ds := r.takeWhile Char.isDigit
      if ds.isEmpty then none
      else
        match r.drop ds.length with
        | ';' :: rr => some (Char.ofNat (parseNatDigits ds), rr)
        | _ => none
  | _ =>
      match namedEntities.find? (fun p => p.1.isPrefixOf rest) with
      | some (nm, ch) => some (ch, rest.drop nm.length)
      | none => none

/-- `html.unescape` (subset).  The fuel argument only bounds the recursion;
`length + 1` is always enough since every step consumes at least one
character. -/
def unescapeEntitiesAux : Nat → Str → Str
  | 0, s => s
  | _ + 1, [] => []
  | fuel + 1, '&' :: rest =>
      match decEntity rest with
      | some (ch, r) => ch :: unescapeEntitiesAux fuel r
      | none => '&' :: unescapeEntitiesAux fuel rest
  | fuel + 1, c :: rest => c :: unescapeEntitiesAux fuel rest

/-- `html.unescape` (subset of entities, see `namedEntities`). -/
def unescapeEntities (s : Str) : Str := unescapeEntitiesAux (s.length + 1) s

/-- `re.sub(r"[    ]", " ", s)`. -/
def mapOddSpaces (s : Str) : Str :=
  s.map (fun c =>
    if c.toNat = 0xA0 || c.toNat = 0x202F || c.toNat = 0x2009 || c.toNat = 0x200A
    then ' ' else c)

/-- `re.sub(r"<[^>]+>", " ", s)`: each leftmost `<body>` span with a
non-empty body becomes one space.  Fuel as in `unescapeEntitiesAux`. -/
def stripTagsAux : Nat → Str → Str
  | 0, s => s
  | _ + 1, [] => []
  | fuel + 1, '<' :: rest =>
      let body := rest.takeWhile (· ≠ '>')
      if body.isEmpty then '<' :: stripTagsAux fuel rest
      else
        match rest.drop body.length with
        | '>' :: r => ' ' :: stripTagsAux fuel r
        | _ => '<' :: stripTagsAux fuel rest
  | fuel + 1, c :: rest => c :: stripTagsAux fuel rest

/-- Strip HTML tags as `_clean` does. -/
def stripTags (s : Str) : Str := stripTagsAux (s.length + 1) s

/-- `_clean` (program_parser.py lines 19-25): unescape entities, normalise
odd spaces, strip tags, collapse whitespace and strip. -/
def cleanText (s : Str) : Str :=
  collapseWS (stripTags (mapOddSpaces (unescapeEntities s)))

/-! ## URL helpers -/

/-- One hex digit's value. -/
def hexVal (c : Char) : Option Nat :=
  let n := c.toNat
  if 48 ≤ n ∧ n ≤ 57 then some (n - 48)
  else if 97 ≤ n ∧ n ≤ 102 then some (n - 87)
  else if 65 ≤ n ∧ n ≤ 70 then some (n - 55)
  else none

/-- `urllib.parse.unquote` (`plusMode = false`) / `unquote_plus`
(`plusMode = true`), for ASCII percent-sequences (the keys handled here
are ASCII). -/
def pctDecode (plusMode : Bool) : Str → Str
  | [] => []
  | '%' :: h1 :: h2 :: rest =>
      match hexVal h1, hexVal h2 with
      | some v1, some v2 => Char.ofNat (16 * v1 + v2) :: pctDecode plusMode rest
      | _, _ => '%' :: pctDecode plusMode (h1 :: h2 :: rest)
  | '+' :: rest =>
      if plusMode then ' ' :: pctDecode plusMode rest else '+' :: pctDecode plusMode rest
  | c :: rest => c :: pctDecode plusMode rest

/-- `_to_int` (program_parser.py lines 62-65): drop commas, strip, parse as
a Python `int` (optional sign and decimal digits); `None` on anything
else or on a falsy argument. -/
def pyIntOpt (s : Str) : Option Int :=
  let t := stripStr s
  match t with
  | [] => none
  | '-' :: ds =>
      if !ds.isEmpty && ds.all Char.isDigit then some (-(parseNatDigits ds : Int)) else none
  | '+' :: ds =>
      if !ds.isEmpty && ds.all Char.isDigit then some (parseNatDigits ds : Int) else none
  | ds => if ds.all Char.isDigit then some (parseNatDigits ds : Int) else none

/-- `_to_int` on an optional capture. -/
def toIntOpt : Option Str → Option Int
  | none => none
  | some s => if s.isEmpty then none else pyIntOpt (replaceAllStr [','] [] s)

/-! ## `program_parser.py` — the race-header regex `_RE_HEADER_FULL`

`Race\s*0*(?P<num>\d{1,2})\s*(?:[-‐-―−‒]\s*)?`
`(?:(?P<time>\d{1,2}:\d{2}\s*[AP]M)\s*)?(?P<title>.*?)`
`\(\s*(?P<metres>\d{3,4})\s*METRES?\s*\)`  with `re.I | re.S`. -/

/-- The dash class `[-‐-―−‒]` of the header regex. -/
def isDashChar (c : Char) : Bool :=
  c = '-' || (0x2010 ≤ c.toNat && c.toNat ≤ 0x2015) || c.toNat = 0x2212

/-- `\d{k}:` — exactly `k` digits then a colon. -/
def tryTimeDigits (k : Nat) (s : Str) : Option Str :=
  if (s.take k).length = k && (s.take k).all Char.isDigit then
    match s.drop k with
    | ':' :: r => some r
    | _ => none
  else none

/-- The optional post-time group `\d{1,2}:\d{2}\s*[AP]M` followed by the
group's own `\s*`; greedy, so two hour digits are preferred.  Returns the
text after the group, or `none` when the group does not match here. -/
def tryTime (s : Str) : Option Str :=
  match tryTimeDigits 2 s <|> tryTimeDigits 1 s with
  | none => none
  | some r =>
      match r with
      | d1 :: d2 :: r2 =>
          if d1.isDigit && d2.isDigit then
            match r2.dropWhile isSpaceChar with
            | a :: m :: r4 =>
                if (a = 'A' || a = 'a' || a = 'P' || a = 'p') && (m = 'M' || m = 'm') then
                  some (r4.dropWhile isSpaceChar)
                else none
            | _ => none
          else none
      | _ => none

/-- `\s*\)`. -/
def closeParen (u : Str) : Option Str :=
  match u.dropWhile isSpaceChar with
  | ')' :: r => some r
  | _ => none

/-- `S?\s*\)` after `METRE`: greedily take the optional `S`, falling back
to the bare close paren (re backtracking order). -/
def metreTail (u : Str) : Option Str :=
  (match u with
   | c :: r => if c = 'S' || c = 's' then closeParen r else none
   | [] => none) <|> closeParen u

/-- Attempt `\d{t}\s*METRES?\s*\)` taking exactly `t` digits from the
digit run `run` at `u`. -/
def parenDigitsTry (t : Nat) (u run : Str) : Option (Str × Str) :=
  if t ≤ run.length then
    match litCI "METRE".data ((u.drop t).dropWhile isSpaceChar) with
    | some r => (metreTail r).map (fun rr => (u.take t, rr))
    | none => none
  else none

/-- `\(\s*(\d{3,4})\s*METRES?\s*\)` anchored at the current position:
returns the metres capture and the rest after `)`.  `\d{3,4}` is greedy,
so four digits are tried before three. -/
def parenMetresAt (s : Str) : Option (Str × Str) :=
  match s with
  | '(' :: s1 =>
      let s2 := s1.dropWhile isSpaceChar
      let run := s2.takeWhile Char.isDigit
      parenDigitsTry 4 s2 run <|> parenDigitsTry 3 s2 run
  | _ => none

/-- The lazy `(?P<title>.*?)` followed by the metres group: scan forward
for the first position where `parenMetresAt` succeeds; everything before
it is the title capture. -/
def titleScan : Str → Option (Str × Str × Str)
  | [] => none
  | s@(c :: rest) =>
      match parenMetresAt s with
      | some (ds, r) => some ([], ds, r)
      | none =>
          match titleScan rest with
          | some (t, ds, r) => some (c :: t, ds, r)
          | none => none

/-- The captures of one header match. -/
structure HeadCap where
  num : Nat
  titleRaw : Str
  metres : Str
deriving DecidableEq

/-- `\s*0*(\d{1,2})` after `Race`: the digit capture and the text after
the consumed digits.  `0*` is greedy with the usual backtracking: when
the digit run is all zeros the last zero becomes the capture. -/
def headerNumSplit (s2 : Str) : Option (Str × Str) :=
  let run := s2.takeWhile Char.isDigit
  if run.isEmpty then none
  else
    let z := run.takeWhile (· = '0')
    let numDs := if z.length = run.length then ['0'] else (run.drop z.length).take 2
    let consumed := if z.length = run.length then run.length else z.length + numDs.length
    some (numDs, s2.drop consumed)

/-- The optional dash group `(?:[-‐-―−‒]\s*)?`. -/
def headerDashSkip (s3 : Str) : Str :=
  match s3 with
  | c :: r => if isDashChar c then r.dropWhile isSpaceChar else s3
  | [] => s3

/-- `_RE_HEADER_FULL` attempted at the current position.  Returns the
captures and the text after the match. -/
def matchHeaderAt (s : Str) : Option (HeadCap × Str) :=
  match litCI "Race".data s with
  | none => none
  | some s1 =>
      match headerNumSplit (s1.dropWhile isSpaceChar) with
      | none => none
      | some (numDs, s3a) =>
          let s4 := headerDashSkip (s3a.dropWhile isSpaceChar)
          let s5 := (tryTime s4).getD s4
          match titleScan s5 with
          | some (t, ds, r) => some (⟨parseNatDigits numDs, t, ds⟩, r)
          | none => none

/-- One `re.finditer` match of the header regex: span `[hs, he)` plus
captures. -/
structure HMatch where
  hs : Nat
  he : Nat
  cap : HeadCap
deriving DecidableEq

/-- `re.finditer(_RE_HEADER_FULL, text)`: leftmost matches, resuming after
each match's end.  Fuel bounds the scan; `length + 1` suffices since the
position strictly advances. -/
def findHeadersAux : Nat → Str → Nat → List HMatch
  | 0, _, _ => []
  | _ + 1, [], _ => []
  | fuel + 1, s@(_ :: rest), pos =>
      match matchHeaderAt s with
      | some (cap, r) =>
          let e := pos + (s.length - r.length)
          ⟨pos, e, cap⟩ :: findHeadersAux fuel r e
      | none => findHeadersAux fuel rest (pos + 1)

/-- All header matches of a cleaned page text, with positions. -/
def findHeaders (t : Str) : List HMatch := findHeadersAux (t.length + 1) t 0

/-- The block spans of `_iter_blocks`: each block runs from the end of one
header match to the start of the next (or to `L` for the last). -/
def blocksOf (L : Nat) : List HMatch → List (Nat × Nat)
  | [] => []
  | [m] => [(m.he, L)]
  | m1 :: m2 :: t => (m1.he, m2.hs) :: blocksOf L (m2 :: t)

/-- The block spans of a text. -/
def raceBlockSpans (t : Str) : List (Nat × Nat) := blocksOf t.length (findHeaders t)

/-- What `_iter_blocks` yields for one header: race number, raw title,
metres capture and the stripped block text. -/
structure RaceBlockSeed where
  num : Nat
  titleRaw : Str
  metres : Str
  block : Str
deriving DecidableEq

/-- Build one `_iter_blocks` tuple: the block is `text[start:stop].strip()`
with `start` the header's end. -/
def seedOf (text : Str) (m : HMatch) (stop : Nat) : RaceBlockSeed :=
  ⟨m.cap.num, m.cap.titleRaw, m.cap.metres,
   stripStr ((text.drop m.he).take (stop - m.he))⟩

/-- `_iter_blocks` over a list of header matches. -/
def iterBlocksGo (text : Str) : List HMatch → List RaceBlockSeed
  | [] => []
  | [m] => [seedOf text m text.length]
  | m1 :: m2 :: t => seedOf text m1 m2.hs :: iterBlocksGo text (m2 :: t)

/-- `_iter_blocks` (program_parser.py lines 76-86). -/
def iterBlocks (text : Str) : List RaceBlockSeed := iterBlocksGo text (findHeaders text)

/-! ## `program_parser.py` — `_normalize_title` -/

/-- `_strip_leading_dash`: `re.sub(r"^\s*[-…]+\s*", "", s)` — requires at
least one dash; otherwise the string (leading spaces included) is kept. -/
def stripLeadDash (s : Str) : Str :=
  let a := s.dropWhile isSpaceChar
  let b := a.dropWhile isDashChar
  if b.length = a.length then s else b.dropWhile isSpaceChar

/-- `_strip_time_prefix`: `re.sub(r"^\s*\d{1,2}:\d{2}\s*[AP]M\s*", "", s)`. -/
def stripTimePre (s : Str) : Str :=
  (tryTime (s.dropWhile isSpaceChar)).getD s

/-- Does `s` match `\s*\(\s*\d{3,4}\s*METRES?\s*\)\s*` entirely (the
trailing-metres pattern anchored to the end)? -/
def matchTMEnd (s : Str) : Bool :=
  match parenMetresAt (s.dropWhile isSpaceChar) with
  | some (_, r) => (r.dropWhile isSpaceChar).isEmpty
  | none => false

/-- Leftmost-position scan for the end-anchored trailing-metres pattern:
on a match everything before it is kept, otherwise the original string. -/
def stripTrailMetresAux (orig : Str) : Str → Str → Str
  | revPre, [] => if matchTMEnd [] then revPre.reverse else orig
  | revPre, remaining@(c :: t) =>
      if matchTMEnd remaining then revPre.reverse
      else stripTrailMetresAux orig (c :: revPre) t

/-- `_strip_trailing_metres`: `re.sub(r"\s*\(\s*\d{3,4}\s*METRES?\s*\)\s*$", "", s)`. -/
def stripTrailMetres (s : Str) : Str := stripTrailMetresAux s [] s

/-- `_normalize_title` (program_parser.py lines 56-60). -/
def normalizeTitle (raw : Str) : Str :=
  stripStr (stripTrailMetres (stripTimePre (stripLeadDash raw)))

end RA

namespace RA

/-! ## `program_parser.py` — class/grade pickers -/

/-- `(1|2|3)\b` for the GROUP regex. -/
def groupDigitCheck : Str → Option Char
  | c :: rest => if (c = '1' || c = '2' || c = '3') && headNonWord rest then some c else none
  | [] => none

/-- `\bGROUP\s?(1|2|3)\b` attempted at one position (`_RE_GROUP`). -/
def matchGroupAt (prev : Option Char) (s : Str) : Option Char :=
  if prevOkWB prev then
    match litCI "GROUP".data s with
    | some r =>
        (match r with
         | c :: t => if isSpaceChar c then groupDigitCheck t else none
         | [] => none) <|> groupDigitCheck r
    | none => none
  else none

/-- `_RE_GROUP.search`. -/
def searchGroup (s : Str) : Option Char := searchRE matchGroupAt s

/-- `\bWORD\b` attempted at one position. -/
def matchWordAt (w : Str) (prev : Option Char) (s : Str) : Option Unit :=
  if prevOkWB prev then
    match litCI w s with
    | some r => if headNonWord r then some () else none
    | none => none
  else none

/-- `re.search(r"\bWORD\b", s, re.I)`. -/
def searchWord (w : Str) (s : Str) : Bool := (searchRE (matchWordAt w) s).isSome

/-- `(\d{2})\b` for `_RE_BM`. -/
def bmDigits2 : Str → Option Str
  | d1 :: d2 :: rest =>
      if d1.isDigit && d2.isDigit && headNonWord rest then some [d1, d2] else none
  | _ => none

/-- `\bBM\s?(\d{2})\b` attempted at one position (`_RE_BM`). -/
def matchBMAt (prev : Option Char) (s : Str) : Option Str :=
  if prevOkWB prev then
    match litCI "BM".data s with
    | some r =>
        (match r with
         | c :: t => if isSpaceChar c then bmDigits2 t else none
         | [] => none) <|> bmDigits2 r
    | none => none
  else none

/-- `(\d+\+?)`: a non-empty digit run with an optional trailing plus. -/
def benchDigits (u : Str) : Option Str :=
  let run := u.takeWhile Char.isDigit
  if run.isEmpty then none
  else
    match u.drop run.length with
    | '+' :: _ => some (run ++ ['+'])
    | _ => some run

/-- The `Benchmark` alternative of `_RE_BENCHMARK`. -/
def benchWordAlt (s : Str) : Option Str :=
  match litCI "Benchmark".data s with
  | some r => benchDigits (r.dropWhile isSpaceChar)
  | none => none

/-- `\b(?:BM|Benchmark)\s*(\d+\+?)` attempted at one position — the final
`_RE_BENCHMARK` (program_parser.py line 348, which shadows the earlier
definitions at module load). -/
def matchBenchmarkAt (prev : Option Char) (s : Str) : Option Str :=
  if prevOkWB prev then
    match litCI "BM".data s with
    | some r =>
        match benchDigits (r.dropWhile isSpaceChar) with
        | some g => some g
        | none => benchWordAlt s
    | none => benchWordAlt s
  else none

/-- `(\d)\b` for `_RE_CLASSN`. -/
def classDigit1 : Str → Option Char
  | d :: rest => if d.isDigit && headNonWord rest then some d else none
  | [] => none

/-- `\bCLASS\s?(\d)\b` attempted at one position (`_RE_CLASSN`). -/
def matchClassNAt (prev : Option Char) (s : Str) : Option Char :=
  if prevOkWB prev then
    match litCI "CLASS".data s with
    | some r =>
        (match r with
         | c :: t => if isSpaceChar c then classDigit1 t else none
         | [] => none) <|> classDigit1 r
    | none => none
  else none

/-- `\bNo\s+WORD\s+restriction(s)?\b` attempted at one position — the
shared shape of `_RE_NOCLASS`, `_RE_NO_AGE` and `_RE_NO_SEX`. -/
def matchNoRestrictionAt (word : Str) (prev : Option Char) (s : Str) : Option Unit :=
  if prevOkWB prev then
    match (litCI "No".data s >>= wsPlus) >>= (fun r => litCI word r >>= wsPlus) >>=
        litCI "restriction".data with
    | some r5 =>
        if (match r5 with
            | c :: t => (c = 's' || c = 'S') && headNonWord t
            | [] => false) || headNonWord r5
        then some () else none
    | none => none
  else none

/-- `re.search` for the `No ... restriction(s)` patterns. -/
def searchNoRestriction (word : Str) (s : Str) : Bool :=
  (searchRE (matchNoRestrictionAt word) s).isSome

/-- `_pick_class` (program_parser.py lines 233-245): Group from the block,
then Listed from the block, then BM/Benchmark from the uppercased title,
then Maiden, then Class-N, then Open from the padded title or the
no-class-restriction block pattern, else `None`. -/
def pickClass (block title : Str) : Option Str :=
  match searchGroup block with
  | some g => some ['G', g]
  | none =>
    if searchWord "LISTED".data block then some "Listed".data
    else
      let d := upperStr title
      match searchRE matchBMAt d <|> searchRE matchBenchmarkAt d with
      | some g => some ("BM".data ++ g)
      | none =>
        if searchWord "MAIDEN".data d then some "Maiden".data
        else
          match searchRE matchClassNAt d with
          | some c => some ("CL".data ++ [c])
          | none =>
            if containsStr " OPEN ".data (' ' :: (d ++ [' '])) ||
                searchNoRestriction "class".data block
            then some "Open".data
            else none

/-! ## `program_parser.py` — prize picker -/

/-- `\bOf\s*\$?\s*([\d,]{3,})` attempted at one position (`_RE_PRIZE_OF`). -/
def matchPrizeOfAt (prev : Option Char) (s : Str) : Option Str :=
  if prevOkWB prev then
    match litCI "Of".data s with
    | some r =>
        let r1 := r.dropWhile isSpaceChar
        let r2 := match r1 with
          | '$' :: t => t
          | _ => r1
        let r3 := r2.dropWhile isSpaceChar
        let run := r3.takeWhile (fun c => c.isDigit || c = ',')
        if 3 ≤ run.length then some run else none
    | none => none
  else none

/-- `\b(?:Total\s+)?Prizemoney\b[^$]*\$\s*([\d,]{3,})` attempted at one
position (`_RE_PRIZE_TOTAL`). -/
def matchPrizeTotalAt (prev : Option Char) (s : Str) : Option Str :=
  if prevOkWB prev then
    match
      (match litCI "Total".data s >>= wsPlus with
       | some r => litCI "Prizemoney".data r
       | none => none) <|> litCI "Prizemoney".data s with
    | some r =>
        if headNonWord r then
          match r.dropWhile (· ≠ '$') with
          | '$' :: r2 =>
              let r3 := r2.dropWhile isSpaceChar
              let run := r3.takeWhile (fun c => c.isDigit || c = ',')
              if 3 ≤ run.length then some run else none
          | _ => none
        else none
    | none => none
  else none

/-- `re.findall(r"\$\s*([\d,]{3,})", block)`: every non-overlapping
dollar-amount capture, left to right (`_RE_PRIZE_ANY`). -/
def findDollarAmounts : Nat → Str → List Str
  | 0, _ => []
  | _ + 1, [] => []
  | fuel + 1, '$' :: rest =>
      let r := rest.dropWhile isSpaceChar
      let run := r.takeWhile (fun c => c.isDigit || c = ',')
      if 3 ≤ run.length then run :: findDollarAmounts fuel (r.drop run.length)
      else findDollarAmounts fuel rest
  | fuel + 1, _ :: rest => findDollarAmounts fuel rest

/-- `_pick_prize_total` (program_parser.py lines 217-222): the `Of $N` or
`Prizemoney … $N` capture if either regex matches, else the maximum of
all truthy dollar amounts in the block. -/
def pickPrizeTotal (block : Str) : Option Int :=
  match searchRE matchPrizeOfAt block <|> searchRE matchPrizeTotalAt block with
  | some g => toIntOpt (some g)
  | none =>
      let nums := ((findDollarAmounts (block.length + 1) block).map
        (fun g => toIntOpt (some g))).reduceOption
      let nums := nums.filter (· ≠ 0)
      match nums with
      | [] => none
      | n :: t => some (t.foldl max n)

/-! ## `program_parser.py` — condition picker -/

/-- `(?:&|AND|PLUS)` for `_RE_HAS_SWP`. -/
def swpConnector (s : Str) : Option Str :=
  (match s with
   | '&' :: t => some t
   | _ => none) <|> litCI "AND".data s <|> litCI "PLUS".data s

/-- `SET\s*WEIGHTS\s*(?:&|AND|PLUS)\s*PENALTIES|SWP` attempted at one
position — note `_RE_HAS_SWP` has no word boundaries, so a bare `SWP`
substring matches anywhere. -/
def matchSWPAt (s : Str) : Option Unit :=
  (match litCI "SET".data s with
   | some r =>
       match litCI "WEIGHTS".data (r.dropWhile isSpaceChar) with
       | some r2 =>
           match swpConnector (r2.dropWhile isSpaceChar) with
           | some r3 => (litCI "PENALTIES".data (r3.dropWhile isSpaceChar)).map (fun _ => ())
           | none => none
       | none => none
   | none => none) <|> (litCI "SWP".data s).map (fun _ => ())

/-- `_RE_HAS_SWP.search`. -/
def searchSWP (s : Str) : Bool := (searchRE (fun _ u => matchSWPAt u) s).isSome

/-- `\bSET\s*WEIGHTS\b` attempted at one position (`_RE_HAS_SW`). -/
def matchSWAt (prev : Option Char) (s : Str) : Option Unit :=
  if prevOkWB prev then
    match litCI "SET".data s with
    | some r =>
        match litCI "WEIGHTS".data (r.dropWhile isSpaceChar) with
        | some r2 => if headNonWord r2 then some () else none
        | none => none
    | none => none
  else none

/-- `\b(HANDICAP|HCP)\b` attempted at one position (`_RE_HAS_HCP`). -/
def matchHcpAt (prev : Option Char) (s : Str) : Option Unit :=
  if prevOkWB prev then
    (match litCI "HANDICAP".data s with
     | some r => if headNonWord r then some () else none
     | none => none) <|>
    (match litCI "HCP".data s with
     | some r => if headNonWord r then some () else none
     | none => none)
  else none

/-- `\bWFA\b|\bWEIGHT\s*FOR\s*AGE\b` attempted at one position
(`_RE_HAS_WFA`). -/
def matchWFAAt (prev : Option Char) (s : Str) : Option Unit :=
  if prevOkWB prev then
    (match litCI "WFA".data s with
     | some r => if headNonWord r then some () else none
     | none => none) <|>
    (match litCI "WEIGHT".data s with
     | some r =>
         match litCI "FOR".data (r.dropWhile isSpaceChar) with
         | some r2 =>
             match litCI "AGE".data (r2.dropWhile isSpaceChar) with
             | some r3 => if headNonWord r3 then some () else none
             | none => none
         | none => none
     | none => none)
  else none

/-- `_pick_condition` (program_parser.py lines 224-231): fixed priority
SWP > SW > Quality > Hcp > WFA. -/
def pickCondition (block : Str) : Option Str :=
  if searchSWP block then some "SWP".data
  else if (searchRE matchSWAt block).isSome then some "SW".data
  else if searchWord "QUALITY".data block then some "Quality".data
  else if (searchRE matchHcpAt block).isSome then some "Hcp".data
  else if (searchRE matchWFAAt block).isSome then some "WFA".data
  else none

end RA

namespace RA

/-! ## `program_parser.py` — age picker -/

/-- `\s*(?:-|\s)*`: the combined whitespace/dash glue of the age regexes
(equivalent to dropping any run over whitespace and `-`). -/
def dashWS (u : Str) : Str := u.dropWhile (fun c => isSpaceChar c || c = '-')

/-- `\s?YO\b` after the digit capture `ds` (greedy optional space first). -/
def yoTail (ds : Str) (u : Str) : Option Str :=
  let tryAt (v : Str) : Option Str :=
    match litCI "YO".data v with
    | some r => if headNonWord r then some ds else none
    | none => none
  (match u with
   | c :: t => if isSpaceChar c then tryAt t else none
   | [] => none) <|> tryAt u

/-- `\b(\d{1,2})\s?YO\b` attempted at one position (`_RE_AGE_YO`);
`\d{1,2}` greedily prefers two digits. -/
def matchAgeYOAt (prev : Option Char) (s : Str) : Option Str :=
  if prevOkWB prev then
    let run := s.takeWhile Char.isDigit
    if run.isEmpty then none
    else
      (if 2 ≤ run.length then yoTail (run.take 2) (s.drop 2) else none) <|>
        yoTail (run.take 1) (s.drop 1)
  else none

/-- `Years?` then the dash/space glue then `Old`: the shared middle of the
worded age regexes.  The optional `s` is greedy with backtracking. -/
def yearsOldTail (u : Str) : Option Str :=
  match litCI "Year".data u with
  | some r =>
      (match r with
       | c :: t => if c = 's' || c = 'S' then litCI "Old".data (dashWS t) else none
       | [] => none) <|> litCI "Old".data (dashWS r)
  | none => none

/-- `\s*(?:and\s*Up(?:wards)?|&\s*Up)\b` after `Old`. -/
def upTail (u : Str) : Bool :=
  let v := u.dropWhile isSpaceChar
  let andPath : Option Str :=
    match litCI "and".data v with
    | some r =>
        match litCI "Up".data (r.dropWhile isSpaceChar) with
        | some r2 =>
            (match litCI "wards".data r2 with
             | some r3 => if headNonWord r3 then some r3 else none
             | none => none) <|> (if headNonWord r2 then some r2 else none)
        | none => none
    | none => none
  let ampPath : Option Str :=
    match v with
    | '&' :: t =>
        match litCI "Up".data (t.dropWhile isSpaceChar) with
        | some r2 => if headNonWord r2 then some r2 else none
        | none => none
    | _ => none
  (andPath <|> ampPath).isSome

/-- `\b(\d{1,2})…Years?…Old…and Up\b` attempted at one position
(`_RE_AGE_NUM_UP`). -/
def matchAgeNumUpAt (prev : Option Char) (s : Str) : Option Str :=
  if prevOkWB prev then
    let run := s.takeWhile Char.isDigit
    if run.isEmpty then none
    else
      let tryK (k : Nat) : Option Str :=
        match yearsOldTail (dashWS (s.drop k)) with
        | some r => if upTail r then some (run.take k) else none
        | none => none
      (if 2 ≤ run.length then tryK 2 else none) <|> tryK 1
  else none

/-- `_WORD_NUM` (program_parser.py lines 14-17) in the alternation order of
the worded-age regexes, paired with the numeral each word maps to. -/
def wordNumList : List (Str × Str) :=
  [("One".data, "1".data), ("Two".data, "2".data), ("Three".data, "3".data),
   ("Four".data, "4".data), ("Five".data, "5".data), ("Six".data, "6".data),
   ("Seven".data, "7".data), ("Eight".data, "8".data), ("Nine".data, "9".data),
   ("Ten".data, "10".data), ("Eleven".data, "11".data), ("Twelve".data, "12".data)]

/-- The `(One|…|Twelve)` alternation: no word is a prefix of another, so at
most one alternative matches at a position. -/
def wordNumAlt (u : Str) : Option (Str × Str) :=
  wordNumList.findSome? (fun p => (litCI p.1 u).map (fun r => (p.2, r)))

/-- `_RE_AGE_WORD_UP` attempted at one position. -/
def matchAgeWordUpAt (prev : Option Char) (s : Str) : Option Str :=
  if prevOkWB prev then
    match wordNumAlt s with
    | some (numStr, r) =>
        match yearsOldTail (dashWS r) with
        | some r2 => if upTail r2 then some numStr else none
        | none => none
    | none => none
  else none

/-- `_RE_AGE_WORD` attempted at one position (`\b` required after `Old`). -/
def matchAgeWordAt (prev : Option Char) (s : Str) : Option Str :=
  if prevOkWB prev then
    match wordNumAlt s with
    | some (numStr, r) =>
        match yearsOldTail (dashWS r) with
        | some r2 => if headNonWord r2 then some numStr else none
        | none => none
    | none => none
  else none

/-- `_age_from_block` (program_parser.py lines 247-263). -/
def ageFromBlock (block : Str) : Option Str :=
  if searchNoRestriction "age".data block then some "No Restrictions".data
  else
    match searchRE matchAgeYOAt block with
    | some ds => some ds
    | none =>
        match searchRE matchAgeNumUpAt block with
        | some ds => some (ds ++ ['+'])
        | none =>
            match searchRE matchAgeWordUpAt block with
            | some n => some (n ++ ['+'])
            | none =>
                match searchRE matchAgeWordAt block with
                | some n => some n
                | none => none

/-! ## `program_parser.py` — sex picker -/

/-- `\bF\s*&\s*M\b` attempted at one position (`_RE_SEX_FM_ABBR`; the
second alternative `\bF&M\b` is the zero-space case of the first). -/
def matchFMAt (prev : Option Char) (s : Str) : Option Unit :=
  if prevOkWB prev then
    match litCI "F".data s with
    | some r =>
        match r.dropWhile isSpaceChar with
        | '&' :: t =>
            match litCI "M".data (t.dropWhile isSpaceChar) with
            | some r2 => if headNonWord r2 then some () else none
            | none => none
        | _ => none
    | none => none
  else none

/-- `_RE_SEX_CG_ABBR` attempted at one position:
`\bC\s*&\s*G\b|\bCG&E\b|\bC&G\b|\bC\s*G\s*&\s*E\b` (the third alternative
is the zero-space case of the first). -/
def matchCGAt (prev : Option Char) (s : Str) : Option Unit :=
  if prevOkWB prev then
    (match litCI "C".data s with
     | some r =>
         match r.dropWhile isSpaceChar with
         | '&' :: t =>
             match litCI "G".data (t.dropWhile isSpaceChar) with
             | some r2 => if headNonWord r2 then some () else none
             | none => none
         | _ => none
     | none => none) <|>
    (match litCI "CG&E".data s with
     | some r => if headNonWord r then some () else none
     | none => none) <|>
    (match litCI "C".data s with
     | some r =>
         match litCI "G".data (r.dropWhile isSpaceChar) with
         | some r2 =>
             match r2.dropWhile isSpaceChar with
             | '&' :: t =>
                 match litCI "E".data (t.dropWhile isSpaceChar) with
                 | some r3 => if headNonWord r3 then some () else none
                 | none => none
             | _ => none
         | none => none
     | none => none)
  else none

/-- `_RE_SEX_WORDS` attempted at one position:
`\b(FILLIES(?:\s+AND\s+MARES)?|MARES|FILLIES|COLTS|GELDINGS|OPEN)\b`.
Returns `m.group(1).upper()`. -/
def matchSexWordsAt (prev : Option Char) (s : Str) : Option Str :=
  if prevOkWB prev then
    let slice (rest : Str) : Str := upperStr (s.take (s.length - rest.length))
    let simpleAlt (w : Str) : Option Str :=
      match litCI w s with
      | some r => if headNonWord r then some (slice r) else none
      | none => none
    (match litCI "FILLIES".data s with
     | some r =>
         (match ((wsPlus r >>= litCI "AND".data) >>= wsPlus) >>= litCI "MARES".data with
          | some r2 => if headNonWord r2 then some (slice r2) else none
          | none => none) <|> (if headNonWord r then some (slice r) else none)
     | none => none) <|>
      simpleAlt "MARES".data <|> simpleAlt "FILLIES".data <|> simpleAlt "COLTS".data <|>
      simpleAlt "GELDINGS".data <|> simpleAlt "OPEN".data
  else none

/-- The token dispatch shared by `_sex_from_title` and `_sex_from_blob`. -/
def sexDispatch (tok : Str) : Option Str :=
  if "FILLIES AND MARES".data.isPrefixOf tok then some "Fillies & Mares".data
  else if tok = "FILLIES".data then some "Fillies".data
  else if tok = "MARES".data then some "Mares".data
  else if tok = "COLTS".data then some "Colts & Geldings".data
  else if tok = "GELDINGS".data then some "Geldings".data
  else if tok = "OPEN".data then some "Open".data
  else none

/-- `_sex_from_title` (program_parser.py lines 265-282): works on the
space-padded uppercased title. -/
def sexFromTitle (title : Str) : Option Str :=
  let t := ' ' :: (upperStr title ++ [' '])
  if (searchRE matchFMAt t).isSome || containsStr " FILLIES AND MARES ".data t then
    some "Fillies & Mares".data
  else if containsStr " FILLIES ".data t then some "Fillies".data
  else if (searchRE matchCGAt t).isSome || containsStr " COLTS ".data t ||
      containsStr " GELDINGS ".data t then
    some "Colts & Geldings".data
  else
    match searchRE matchSexWordsAt t with
    | some tok => sexDispatch tok
    | none => none

/-- `FILLIES\s+AND\s+MARES` (no boundaries) attempted at one position. -/
def famSeq (s : Str) : Option Unit :=
  (((litCI "FILLIES".data s >>= wsPlus) >>= litCI "AND".data) >>= wsPlus >>=
    litCI "MARES".data).map (fun _ => ())

/-- `_sex_from_blob` (program_parser.py lines 284-301). -/
def sexFromBlob (block : Str) : Option Str :=
  if searchNoRestriction "sex".data block then some "Open".data
  else if (searchRE matchFMAt block).isSome ||
      (searchRE (fun _ u => famSeq u) block).isSome then
    some "Fillies & Mares".data
  else if searchWord "FILLIES".data block then some "Fillies".data
  else if (searchRE matchCGAt block).isSome || searchWord "COLTS".data block ||
      searchWord "GELDINGS".data block then
    some "Colts & Geldings".data
  else
    match searchRE matchSexWordsAt block with
    | some tok => sexDispatch tok
    | none => none

/-- `_resolve_sex` (program_parser.py lines 303-308): a title signal wins a
disagreement; default `"Open"`. -/
def resolveSex (title block : Str) : Str :=
  match sexFromBlob block, sexFromTitle title with
  | some b, some t => if b ≠ t then t else b
  | some b, none => b
  | none, some t => t
  | none, none => "Open".data

/-! ## `program_parser.py` — bonus picker -/

/-- `[^.:\n\r]` of the scheme regex. -/
def allowedX (c : Char) : Bool := !(c = '.' || c = ':' || c = '\n' || c = '\r')

/-- `[^.\n\r]` of the scheme/nominator regexes. -/
def allowedY (c : Char) : Bool := !(c = '.' || c = '\n' || c = '\r')

/-- The scheme-name alternation (ordered; the names have pairwise distinct
first letters, so at most one matches at a position). -/
def schemeNames : List Str :=
  ["VOBIS".data, "BOBS".data, "QTIS".data, "WESTSPEED".data, "MAGIC MILLIONS".data]

/-- `(?:BONUS|AVAILABLE)` at the current position. -/
def bonusAlt (u : Str) : Option Str :=
  litCI "BONUS".data u <|> litCI "AVAILABLE".data u

/-- `[^.:\n\r]*(?:BONUS|AVAILABLE)` with a greedy run: the LAST position
inside the allowed run where the alternation matches wins. -/
def lastBonusAlt : Str → Option Str
  | [] => bonusAlt []
  | s@(c :: rest) =>
      if allowedX c then lastBonusAlt rest <|> bonusAlt s
      else bonusAlt s

/-- The scheme regex attempted at one position; returns the matched slice
and the rest of the text. -/
def matchSchemeAt (prev : Option Char) (s : Str) : Option (Str × Str) :=
  if prevOkWB prev then
    match schemeNames.findSome? (fun nm => litCI nm s) with
    | some r =>
        match lastBonusAlt r with
        | some r2 =>
            let r3 := r2.dropWhile allowedY
            some (s.take (s.length - r3.length), r3)
        | none => none
    | none => none
  else none

/-- `\bNominator\s+Bonus[^.\n\r]*` attempted at one position. -/
def matchNominatorAt (prev : Option Char) (s : Str) : Option (Str × Str) :=
  if prevOkWB prev then
    match (litCI "Nominator".data s >>= wsPlus) >>= litCI "Bonus".data with
    | some r =>
        let r2 := r.dropWhile allowedY
        some (s.take (s.length - r2.length), r2)
    | none => none
  else none

/-- `re.finditer` for a matcher that reports its slice and rest: leftmost
matches, resuming after each match (the resumed scan's previous character
is the slice's last character). -/
def finditerAux (matchAt : Option Char → Str → Option (Str × Str)) :
    Nat → Option Char → Str → List Str
  | 0, _, _ => []
  | _ + 1, prev, [] =>
      match matchAt prev [] with
      | some (sl, _) => [sl]
      | none => []
  | fuel + 1, prev, s@(c :: rest) =>
      match matchAt prev s with
      | some (sl, r) => sl :: finditerAux matchAt fuel sl.getLast? r
      | none => finditerAux matchAt fuel (some c) rest

/-- The HTML-attribute junk filter `_attr_junk`:
`\b(?:alt=|width=|height=|border=)\b` — after `=` the boundary demands a
word character next. -/
def matchAttrJunkAt (prev : Option Char) (s : Str) : Option Unit :=
  if prevOkWB prev then
    match ["alt=".data, "width=".data, "height=".data, "border=".data].findSome?
        (fun nm => litCI nm s) with
    | some r => if headIsWord r then some () else none
    | none => none
  else none

/-- `_attr_junk.search`. -/
def hasAttrJunk (s : Str) : Bool := (searchRE matchAttrJunkAt s).isSome

/-- `" | ".join`. -/
def joinSep (sep : Str) : List Str → Str
  | [] => []
  | [x] => x
  | x :: xs => x ++ sep ++ joinSep sep xs

/-- `_bonus_from_block` (program_parser.py lines 310-340): scheme matches
then nominator matches, junk-filtered, cleaned, de-duplicated by
casefolded text, joined with `" | "`. -/
def bonusFromBlock (block : Str) : Option Str :=
  let raws := finditerAux matchSchemeAt (block.length + 1) none block ++
    finditerAux matchNominatorAt (block.length + 1) none block
  let out := (raws.foldl (fun (acc : List Str × List Str) raw =>
    if hasAttrJunk raw then acc
    else
      let txt := cleanText raw
      let key := lowerStr txt
      if key.isEmpty || key ∈ acc.1 then acc else (key :: acc.1, acc.2 ++ [txt]))
    ([], [])).2
  if out.isEmpty then none else some (joinSep " | ".data out)

end RA

namespace RA

/-! ## `program_parser.py` — class derivation from descriptions/HTML -/

/-- `\bBase\s*Rating\s*(\d+)` attempted at one position (`_RE_BASE_RATING`). -/
def matchBaseRatingAt (prev : Option Char) (s : Str) : Option Str :=
  if prevOkWB prev then
    match litCI "Base".data s with
    | some r =>
        match litCI "Rating".data (r.dropWhile isSpaceChar) with
        | some r2 =>
            let run := (r2.dropWhile isSpaceChar).takeWhile Char.isDigit
            if run.isEmpty then none else some run
        | none => none
    | none => none
  else none

/-- `\bRTG\s*(\d+\+?)` attempted at one position (the final `_RE_RTG`,
program_parser.py line 346). -/
def matchRtgAt (prev : Option Char) (s : Str) : Option Str :=
  if prevOkWB prev then
    match litCI "RTG".data s with
    | some r => benchDigits (r.dropWhile isSpaceChar)
    | none => none
  else none

/-- `\bClass\s*(\d+)\b` attempted at one position (`_RE_CLASSNUM`). -/
def matchClassNumAt (prev : Option Char) (s : Str) : Option Str :=
  if prevOkWB prev then
    match litCI "Class".data s with
    | some r =>
        let u := r.dropWhile isSpaceChar
        let run := u.takeWhile Char.isDigit
        if !run.isEmpty && headNonWord (u.drop run.length) then some run else none
    | none => none
  else none

/-- `_derive_bm_or_class_from_text` (program_parser.py lines 153-171):
Base Rating, then RTG, then BM/Benchmark, then Class-N. -/
def deriveBmOrClass (txt : Str) : Option Str :=
  let t := stripStr txt
  match searchRE matchBaseRatingAt t with
  | some g => some ("BM".data ++ g)
  | none =>
      match searchRE matchRtgAt t with
      | some g => some ("BM".data ++ g)
      | none =>
          match searchRE matchBenchmarkAt t with
          | some g => some ("BM".data ++ g)
          | none =>
              match searchRE matchClassNumAt t with
              | some g => some ("CL".data ++ g)
              | none => none

/-- `(?:&nbsp;|\s|[:-])*` of `_derive_class_near_race`: repeatedly consume
an `&nbsp;` literal or one whitespace/colon/dash character (fuel-bounded;
`length + 1` suffices). -/
def starNbsp : Nat → Str → Str
  | 0, s => s
  | fuel + 1, s =>
      match litCI "&nbsp;".data s with
      | some r => starNbsp fuel r
      | none =>
          match s with
          | c :: rest =>
              if isSpaceChar c || c = ':' || c = '-' then starNbsp fuel rest else s
          | [] => s

/-- `race\s*(?:&nbsp;|\s|[:-])*N\b` attempted at one position (re.I). -/
def matchRaceNearAt (numDs : Str) (s : Str) : Bool :=
  match litCI "race".data s with
  | some r =>
      match litCI numDs (starNbsp (r.length + 1) r) with
      | some r3 => headNonWord r3
      | none => false
  | none => false

/-- Leftmost match of the near-race pattern; returns the suffix at the
match start (so `m.start():m.start()+2000` is the suffix's first 2000
characters). -/
def searchRaceNear (numDs : Str) : Str → Option Str
  | [] => if matchRaceNearAt numDs [] then some [] else none
  | s@(_ :: rest) =>
      if matchRaceNearAt numDs s then some s else searchRaceNear numDs rest

/-- `_derive_class_near_race` (program_parser.py lines 174-183). -/
def deriveClassNearRace (html : Str) (raceNo : Nat) : Option Str :=
  if html.isEmpty || raceNo = 0 then none
  else
    match searchRaceNear (Nat.repr raceNo).data html with
    | some suffix => deriveBmOrClass (suffix.take 2000)
    | none => none

/-! ## `program_parser.py` — key parsing -/

/-- Worker for `splitOnStr` (fuel-bounded as in `replaceAllAux`). -/
def splitOnAux (sep : Str) : Nat → Str → Str → List Str
  | 0, acc, _ => [acc.reverse]
  | _ + 1, acc, [] => [acc.reverse]
  | fuel + 1, acc, s@(c :: rest) =>
      if sep.isPrefixOf s && !sep.isEmpty then
        acc.reverse :: splitOnAux sep fuel [] (rest.drop (sep.length - 1))
      else splitOnAux sep fuel (c :: acc) rest

/-- Python `str.split(sep)` for a non-empty separator (keeps empties). -/
def splitOnStr (sep s : Str) : List Str := splitOnAux sep (s.length + 1) [] s

/-- `_MONTHS` (program_parser.py lines 11-12). -/
def monthTable : List (Str × Nat) :=
  [("JAN".data, 1), ("FEB".data, 2), ("MAR".data, 3), ("APR".data, 4),
   ("MAY".data, 5), ("JUN".data, 6), ("JUL".data, 7), ("AUG".data, 8),
   ("SEP".data, 9), ("OCT".data, 10), ("NOV".data, 11), ("DEC".data, 12)]

/-- `_MONTHS.get(mon3.upper())`. -/
def monthNum (mon3 : Str) : Option Nat :=
  (monthTable.find? (fun p => p.1 = upperStr mon3)).map (·.2)

/-- `re.match(r"(\d{4})([A-Za-z]{3})(\d{2})$", s)` plus the month lookup:
the year digits, month number and day digits of a `YYYYMonDD` key date. -/
def parseYMonD (s : Str) : Option (Str × Nat × Str) :=
  let ys := s.take 4
  let ms := (s.drop 4).take 3
  let ds := s.drop 7
  if s.length = 9 && ys.all Char.isDigit && ms.all Char.isAlpha &&
      ds.all Char.isDigit then
    match monthNum ms with
    | some m => some (ys, m, ds)
    | none => none
  else none

/-- `[?&]Key=([^&]+)` attempted at one position (case-sensitive,
`_parse_key_from_url` line 29). -/
def matchKeyParamAt (s : Str) : Option Str :=
  match s with
  | c :: rest =>
      if (c = '?' || c = '&') && "Key=".data.isPrefixOf rest then
        let g := (rest.drop 4).takeWhile (· ≠ '&')
        if g.isEmpty then none else some g
      else none
  | [] => none

/-- `re.search(r"[?&]Key=([^&]+)", url)`. -/
def searchKeyParam (url : Str) : Option Str :=
  searchRE (fun _ s => matchKeyParamAt s) url

/-- `_parse_key_from_url` (program_parser.py lines 27-45): note the month
in the date string is NOT zero-padded (`f"{y}-{mon}-{d}"`). -/
def parseKeyFromUrl (url : Str) : Option Str × Option Str × Option Str :=
  match searchKeyParam url with
  | none => (none, none, none)
  | some g =>
      let key := pctDecode false g
      match splitOnStr [','] key with
      | [ymondd, state, track] =>
          let st := stripStr state
          let stO := if st.isEmpty then none else some st
          let tr := stripStr track
          let trO := if tr.isEmpty then none else some tr
          match parseYMonD (stripStr ymondd) with
          | some (ys, m, ds) =>
              (some (ys ++ '-' :: (Nat.repr m).data ++ '-' :: ds), stO, trO)
          | none => (none, stO, trO)
      | _ => (none, none, none)

/-- The query component of a URL (`urlparse(url).query`, for the URLs at
hand: the text after the first `?`, stopping at a `#` fragment). -/
def urlQueryOf (u : Str) : Str :=
  match (u.takeWhile (· ≠ '#')).dropWhile (· ≠ '?') with
  | '?' :: r => r
  | _ => []

/-- `urllib.parse.parse_qs` (keep_blank_values=False): split on `&`,
split each part at its first `=`, drop parts with no `=` or an empty raw
value, percent/plus-decode names and values. -/
def parseQS (query : Str) : List (Str × Str) :=
  (splitOnStr ['&'] query).filterMap (fun part =>
    let name := part.takeWhile (· ≠ '=')
    match part.drop name.length with
    | '=' :: v =>
        if v.isEmpty then none else some (pctDecode true name, pctDecode true v)
    | _ => none)

/-- The first value of a query parameter (`parse_qs` keeps values in
order; `[0]` takes the first). -/
def getQSFirst (q : List (Str × Str)) (name : Str) : Option Str :=
  (q.find? (fun p => p.1 = name)).map (·.2)

/-- Pad a month number to two digits (`f"{mm:02d}"`). -/
def pad2 (n : Nat) : Str :=
  if n < 10 then '0' :: (Nat.repr n).data else (Nat.repr n).data

/-- `_parse_key_meta_from_url` (program_parser.py lines 351-379): the
fallback key metadata; here the month IS zero-padded. -/
def parseKeyMetaFromUrl (url : Str) : Option Str × Option Str × Option Str :=
  let q := parseQS (urlQueryOf url)
  let key :=
    match getQSFirst q "Key".data with
    | some v => v
    | none =>
        match getQSFirst q "key".data with
        | some v => v
        | none => []
  let key := pctDecode false key
  match (splitOnStr [','] key).map stripStr with
  | dstr :: state :: track :: _ =>
      let dateIso :=
        match parseYMonD dstr with
        | some (ys, m, ds) => some (ys ++ '-' :: (pad2 m ++ '-' :: ds))
        | none => none
      (dateIso, some (upperStr state), some (collapseWS track))
  | _ => (none, none, none)

/-! ## `program_parser.py` — `parse_program` -/

/-- One parsed race row (the dict built at program_parser.py lines
397-412; `type` is spelled `rtype`, `class` is `race_class`). -/
structure RaceRow where
  race_no : Nat
  date : Option Str
  state : Option Str
  track : Option Str
  rtype : Option Str
  description : Option Str
  prize : Option Int
  condition : Option Str
  race_class : Option Str
  age : Option Str
  sex : Str
  distance : Option Int
  bonus : Option Str
  url : Str
deriving DecidableEq

/-- Python truthiness of an optional string. -/
def truthyOpt : Option Str → Bool
  | none => false
  | some s => !s.isEmpty

/-- The row built for one `_iter_blocks` tuple (the loop body of
`parse_program`). -/
def rowOfSeed (dateIso state track : Option Str) (url : Str) (b : RaceBlockSeed) :
    RaceRow :=
  let title := normalizeTitle b.titleRaw
  { race_no := b.num, date := dateIso, state := state, track := track,
    rtype := none,
    description := if title.isEmpty then none else some title,
    prize := pickPrizeTotal b.block,
    condition := pickCondition b.block,
    race_class := pickClass b.block title,
    age := ageFromBlock b.block,
    sex := resolveSex title b.block,
    distance := toIntOpt (some b.metres),
    bonus := bonusFromBlock b.block,
    url := url }

/-- `_postprocess_rows` applied to one row (program_parser.py lines
185-214): derive a BM/CL class from the description or nearby raw HTML,
then backfill missing date/state/track from the URL's `Key`. -/
def postRow (url html : Str) (r : RaceRow) : RaceRow :=
  let derived :=
    match deriveBmOrClass (orEmpty r.description) with
    | some d => some d
    | none => if r.race_no = 0 then none else deriveClassNearRace html r.race_no
  let cls :=
    match derived with
    | some d => some d
    | none => r.race_class
  let meta :=
    if truthyOpt r.date && truthyOpt r.state && truthyOpt r.track then
      (r.date, r.state, r.track)
    else
      let (dk, sk, tk) := parseKeyMetaFromUrl url
      ((if !truthyOpt r.date && truthyOpt dk then dk else r.date),
       (if !truthyOpt r.state && truthyOpt sk then sk else r.state),
       (if !truthyOpt r.track && truthyOpt tk then tk else r.track))
  { r with race_class := cls, date := meta.1, state := meta.2.1, track := meta.2.2 }

/-- `_postprocess_rows` (program_parser.py lines 185-214). -/
def postprocessRows (rows : List RaceRow) (url html : Str) : List RaceRow :=
  rows.map (postRow url html)

/-- `parse_program` (program_parser.py lines 382-415). -/
def parse_program (html url : Str) : List RaceRow :=
  let keyMeta := parseKeyFromUrl url
  let text := cleanText html
  let rows := (iterBlocks text).map (rowOfSeed keyMeta.1 keyMeta.2.1 keyMeta.2.2 url)
  postprocessRows rows url html

end RA

namespace RA

/-! ## `ra_harvest.py` — key helpers and class inference -/

/-- The suffix after the first occurrence of `pat` (`s.split(pat, 1)[1]`
when `pat` occurs; `[]` otherwise — the callers test occurrence first). -/
def afterFirst (pat : Str) : Str → Str
  | [] => []
  | s@(_ :: rest) => if pat.isPrefixOf s then s.drop pat.length else afterFirst pat rest

/-- `_extract_key` (ra_harvest.py lines 76-90): the raw
`YYYYMonDD,STATE,Track` key from a URL or key string. -/
def extractKey (urlOrKey : Str) : Option Str :=
  let s := stripStr urlOrKey
  if s.isEmpty then none
  else if containsStr "Key=".data s then
    some (stripStr (pctDecode true ((afterFirst "Key=".data s).takeWhile (· ≠ '&'))))
  else some (stripStr (pctDecode true s))

/-- Leap year (Gregorian). -/
def isLeapYear (y : Nat) : Bool := y % 4 = 0 && (y % 100 ≠ 0 || y % 400 = 0)

/-- Days in a month. -/
def daysInMonth (y m : Nat) : Nat :=
  if m = 2 then (if isLeapYear y then 29 else 28)
  else if m = 4 || m = 6 || m = 9 || m = 11 then 30
  else 31

/-- `datetime.strptime(s, "%Y%b%d")`: one-to-four year digits (greedy),
a three-letter month abbreviation (case-insensitive), one or two day
digits, the whole string consumed, and the day valid for the month. -/
def strptimeYbd (s : Str) : Option (Nat × Nat × Nat) :=
  let tryK (k : Nat) : Option (Nat × Nat × Nat) :=
    let ys := s.take k
    if ys.length = k && ys.all Char.isDigit then
      let ms := (s.drop k).take 3
      match (if ms.length = 3 && ms.all Char.isAlpha then monthNum ms else none) with
      | some m =>
          let ds := s.drop (k + 3)
          if !ds.isEmpty && ds.length ≤ 2 && ds.all Char.isDigit then
            let d := parseNatDigits ds
            if 1 ≤ d && d ≤ daysInMonth (parseNatDigits ys) m then
              some (parseNatDigits ys, m, d)
            else none
          else none
      | none => none
    else none
  tryK 4 <|> tryK 3 <|> tryK 2 <|> tryK 1

/-- Zero-pad a year to four digits. -/
def pad4 (n : Nat) : Str :=
  List.replicate (4 - (Nat.repr n).data.length) '0' ++ (Nat.repr n).data

/-- `dt.strftime("%Y-%m-%d")`. -/
def fmtYMD (y m d : Nat) : Str := pad4 y ++ '-' :: (pad2 m ++ '-' :: pad2 d)

/-- `_date_from_key` (ra_harvest.py lines 93-105). -/
def dateFromKey (urlOrKey : Str) : Option Str :=
  match extractKey urlOrKey with
  | none => none
  | some key =>
      let ymd := stripStr (match splitOnStr [','] key with
        | y :: _ => y
        | [] => [])
      (strptimeYbd ymd).map (fun t => fmtYMD t.1 t.2.1 t.2.2)

/-- `_s` (ra_harvest.py lines 208-212): strip then collapse whitespace,
with `None` as the empty string. -/
def pyS (x : Option Str) : Str := collapseWS (stripStr (orEmpty x))

/-- `\bGROUP\s*([1-3])\b` attempted at one position (`_GROUP_RE` of
ra_harvest.py — `\s*`, unlike the parser's `\s?`). -/
def matchGroupStarAt (prev : Option Char) (s : Str) : Option Char :=
  if prevOkWB prev then
    match litCI "GROUP".data s with
    | some r => groupDigitCheck (r.dropWhile isSpaceChar)
    | none => none
  else none

/-- `(\d{2})\+\b`: two digits, a plus, and a boundary — which after the
non-word `+` demands a word character next. -/
def bmPlusDigits2 : Str → Option Str
  | d1 :: d2 :: '+' :: rest =>
      if d1.isDigit && d2.isDigit && headIsWord rest then some [d1, d2] else none
  | _ => none

/-- `\bBM\s?(\d{2})\+\b` attempted at one position (`_BMPLUS_RE`). -/
def matchBMPlusAt (prev : Option Char) (s : Str) : Option Str :=
  if prevOkWB prev then
    match litCI "BM".data s with
    | some r =>
        (match r with
         | c :: t => if isSpaceChar c then bmPlusDigits2 t else none
         | [] => none) <|> bmPlusDigits2 r
    | none => none
  else none

/-- `(\d{1,2})\s*[-–]\s*(\d{1,2})\b` — the lo/hi pair of `_RATINGS_RE`,
with the greedy two-then-one digit preference on both sides. -/
def ratingsLoHi (u : Str) : Option Str :=
  let run := u.takeWhile Char.isDigit
  if run.isEmpty then none
  else
    let tryLo (k : Nat) : Option Str :=
      if k ≤ run.length then
        match (u.drop k).dropWhile isSpaceChar with
        | c :: t =>
            if c = '-' || c.toNat = 0x2013 then
              let v := t.dropWhile isSpaceChar
              let run2 := v.takeWhile Char.isDigit
              if run2.isEmpty then none
              else
                let tryHi (j : Nat) : Option Str :=
                  if j ≤ run2.length && headNonWord (v.drop j) then
                    some (run.take k ++ '-' :: run2.take j)
                  else none
                (if 2 ≤ run2.length then tryHi 2 else none) <|> tryHi 1
            else none
        | [] => none
      else none
    (if 2 ≤ run.length then tryLo 2 else none) <|> tryLo 1

/-- `\bRATINGS?\s*(?:BAND\s*)?(\d{1,2})\s*[-–]\s*(\d{1,2})\b` attempted at
one position (`_RATINGS_RE`); returns `f"{lo}-{hi}"`. -/
def matchRatingsAt (prev : Option Char) (s : Str) : Option Str :=
  if prevOkWB prev then
    match litCI "RATING".data s with
    | some r0 =>
        let ratTail (u : Str) : Option Str :=
          let u1 := u.dropWhile isSpaceChar
          (match litCI "BAND".data u1 with
           | some b => ratingsLoHi (b.dropWhile isSpaceChar)
           | none => none) <|> ratingsLoHi u1
        (match r0 with
         | c :: t => if c = 's' || c = 'S' then ratTail t else none
         | [] => none) <|> ratTail r0
    | none => none
  else none

/-- `(\d{2})(\+?)\b` of the harvester's `_RTG_RE`: the optional plus is
greedy, and the boundary after a taken plus demands a word character. -/
def rtgDigits : Str → Option (Str × Bool)
  | d1 :: d2 :: rest =>
      if d1.isDigit && d2.isDigit then
        (match rest with
         | '+' :: r2 => if headIsWord r2 then some ([d1, d2], true) else none
         | _ => none) <|> (if headNonWord rest then some ([d1, d2], false) else none)
      else none
  | _ => none

/-- `\bRTG\s?(\d{2})(\+?)\b` attempted at one position (ra_harvest.py's
`_RTG_RE`). -/
def matchRtgHarvAt (prev : Option Char) (s : Str) : Option (Str × Bool) :=
  if prevOkWB prev then
    match litCI "RTG".data s with
    | some r =>
        (match r with
         | c :: t => if isSpaceChar c then rtgDigits t else none
         | [] => none) <|> rtgDigits r
    | none => none
  else none

/-- `_infer_class_from_text` (ra_harvest.py lines 158-203): Group >
Listed > Maiden > BMxx+ > BMxx > ratings band > RTG; an explicit `OPEN`
word yields nothing. -/
def inferClassFromText (text : Str) : Option Str :=
  let t := stripStr text
  if t.isEmpty then none
  else
    match searchRE matchGroupStarAt t with
    | some g => some ("Group ".data ++ [g])
    | none =>
      if searchWord "LISTED".data t then some "Listed".data
      else if searchWord "MAIDEN".data t then some "Maiden".data
      else
        match searchRE matchBMPlusAt t with
        | some ds => some ("BM".data ++ ds ++ ['+'])
        | none =>
            match searchRE matchBMAt t with
            | some ds => some ("BM".data ++ ds)
            | none =>
                match searchRE matchRatingsAt t with
                | some g => some g
                | none =>
                    match searchRE matchRtgHarvAt t with
                    | some (ds, plus) =>
                        some ("BM".data ++ ds ++ (if plus then ['+'] else []))
                    | none =>
                        if searchWord "OPEN".data t then none
                        else none

/-- The class values `_normalize_rows` re-infers over. -/
def replaceableClasses : List Str :=
  ["open".data, "no restrictions".data, "no class restriction".data]

/-- `_normalize_rows` applied to one row (ra_harvest.py lines 227-249):
`row = dict(r)` makes each output row a fresh copy, modelled here by the
pure record update.  Whitespace-normalise description/bonus (keeping the
original when the normal form is empty), backfill a missing date from the
key, and re-infer the class only when the normalised class is empty or
one of `replaceableClasses`. -/
def normalizeRow (isoDate : Option Str) (r : RaceRow) : RaceRow :=
  let desc := pyS r.description
  let bonus := pyS r.bonus
  let descF := if desc.isEmpty then r.description else some desc
  let bonusF := if bonus.isEmpty then r.bonus else some bonus
  let dateF := if truthyOpt r.date then r.date else isoDate
  let haveC := pyS r.race_class
  let clsF :=
    if haveC.isEmpty || lowerStr haveC ∈ replaceableClasses then
      match inferClassFromText (stripStr (desc ++ ' ' :: bonus)) with
      | some inf => some inf
      | none => if haveC.isEmpty then none else r.race_class
    else r.race_class
  { r with description := descF, bonus := bonusF, date := dateF, race_class := clsF }

/-- `_normalize_rows` (ra_harvest.py lines 217-253). -/
def normalize_rows (rows : List RaceRow) (urlOrKey : Str) : List RaceRow :=
  rows.map (normalizeRow (dateFromKey urlOrKey))

end RA

namespace RA

/-! ## `parser.py` — the calendar pagination walker

`_walk_calendar` (parser.py lines 421-469) is embedded as a loop over an
abstract environment: pages and keys are opaque strings, candidate
actions are numbered, and the network/extraction helpers
(`_extract_keys_any`, `_apply_action`, `_candidate_actions`,
`_max_key_date`, Python `hash`) are environment functions.  `applyAct`
returns `none` for a failed fetch or a falsy (empty) page. -/

structure WalkEnv where
  /-- `_extract_keys_any(start_url, page)`. -/
  pageKeys : String → Finset String
  /-- the window/trial-filtered keys added to the accumulator. -/
  kept : String → Finset String
  /-- Python `hash(html)`. -/
  hashFn : String → Int
  /-- `_max_key_date` over a key set. -/
  maxDate : Finset String → Option Int
  /-- the window end `hi`. -/
  winEnd : Int
  /-- `date.min`. -/
  minDate : Int
  /-- `_candidate_actions(start_url, html)`. -/
  actions : String → List Nat
  /-- `_apply_action(...)`; `none` for no/empty page. -/
  applyAct : String → Nat → Option String

/-- The candidate-discovery `for`/`else` loop: the first action producing
a different page whose furthest key date advances. -/
def firstAdvance (env : WalkEnv) (html : String) (old : Int) :
    List Nat → Option (Nat × String)
  | [] => none
  | c :: cs =>
      match env.applyAct html c with
      | none => firstAdvance env html old cs
      | some nh =>
          if nh = html then firstAdvance env html old cs
          else
            let nw := (env.maxDate (env.pageKeys nh)).getD old
            if old < nw then some (c, nh) else firstAdvance env html old cs

/-- The `for hop in range(max_hops)` loop of `_walk_calendar`: accumulate
this page's kept keys; stop if the page hash equals the previous hop's;
stop if the furthest date reaches the window end; otherwise re-validate
the known-good action and fall back to discovery; stop when nothing
advances. -/
def walkLoop (env : WalkEnv) :
    Nat → String → Option Int → Option Nat → Finset String → Finset String
  | 0, _, _, _, keys => keys
  | fuel + 1, html, prevSig, advance, keys0 =>
      let keys := keys0 ∪ env.kept html
      let sig := env.hashFn html
      if prevSig = some sig then keys
      else
        let pk := env.pageKeys html
        let mxStop :=
          match env.maxDate pk with
          | some m => decide (env.winEnd ≤ m)
          | none => false
        if mxStop then keys
        else
          let old := (env.maxDate pk).getD env.minDate
          let reuse : Option String :=
            match advance with
            | some act =>
                match env.applyAct html act with
                | some nh =>
                    if nh ≠ html && old < ((env.maxDate (env.pageKeys nh)).getD old)
                    then some nh else none
                | none => none
            | none => none
          match reuse with
          | some nh => walkLoop env fuel nh (some sig) advance keys
          | none =>
              match firstAdvance env html old (env.actions html) with
              | some (cand, nh) => walkLoop env fuel nh (some sig) (some cand) keys
              | none => keys

/-- `_walk_calendar` after a successful initial fetch of `html0`:
`prev_sig = None`, `advance = None`, `keys = set()`. -/
def walkCalendar (env : WalkEnv) (html0 : String) (maxHops : Nat) : Finset String :=
  walkLoop env maxHops html0 none none ∅

end RA

namespace RA

/-- `_url_from_key_or_url` (ra_harvest.py lines 108-118). -/
def urlFromKeyOrUrl (s0 : Str) : Str :=
  let s := stripStr s0
  if "http".data.isPrefixOf (lowerStr s) then s
  else if containsStr "Key=".data s then s
  else "https://www.racingaustralia.horse/FreeFields/RaceProgram.aspx?Key=".data ++ s

/-- `harvest_program` (ra_harvest.py lines 258-280) after the fetch: the
parse of the fetched page followed by `_normalize_rows`. -/
def harvest_rows (html urlOrKey : Str) : List RaceRow :=
  normalize_rows (parse_program html (urlFromKeyOrUrl urlOrKey)) urlOrKey

end RA

namespace RA

/-! ## Claim theorems -/

/-- Claim C4: for the header text
`"Race 6 - 4:35PM Example Plate (1400 METRES)"` the parser yields one
row with `race_no = 6`, `distance_m = 1400` and title `"Example Plate"`
(post-time and metres suffix stripped). -/
theorem header_example_extraction :
    (parse_program "Race 6 - 4:35PM Example Plate (1400 METRES)".data []).map
        (fun r => (r.race_no, r.description, r.distance)) =
      [(6, some "Example Plate".data, some (1400 : Int))] := by
  decide

/-- Claim C6 (counterexample): `canonical_track_name` is NOT idempotent —
`"tabtab touch"` canonicalises to `"tabtouch"` (the substring `"tab "` is
erased, fusing the remaining characters), and a second pass erases the sponsor word
`"tabtouch"` entirely. -/
theorem canonical_idempotence_cex :
    canonical_track_name (canonical_track_name "tabtab touch".data) ≠
      canonical_track_name "tabtab touch".data := by
  decide

/-- Claim C6 (amended): canonicalisation is deterministic (it is a pure
function), and idempotence — which fails in general — does hold on all
the venue spellings documented in the source's docstrings. -/
theorem canonical_deterministic_and_docstring_idempotent :
    (∀ s : Str, canonical_track_name s = canonical_track_name s) ∧
    (∀ v ∈ ["Canterbury Park", "Canterbury", "bet365 Park Kyneton", "Kyneton",
        "Thomas Farms RC Murray Bridge", "Murray Bridge GH", "Sportsbet-Ballarat",
        "Sportsbet Port Lincoln", "Aquis Park Gold Coast", "Aquis Park Gold Coast Poly",
        "Ladbrokes Geelong", "Southside Pakenham", "Mt Gambier", "Mount Gambier"],
      canonical_track_name (canonical_track_name v.data) =
        canonical_track_name v.data) :=
  ⟨fun _ => rfl, by decide⟩

/-- Claim C7: the local venue `"Sportsbet-Ballarat"` and the provider
venue `"Ballarat"` (same region) canonicalise to the same name, so the
canonical-map lookup resolves the provider meeting id — no fuzzy scoring
is involved (none exists in the code). -/
theorem sponsor_canonical_resolution :
    canonical_track_name "Sportsbet-Ballarat".data = "ballarat".data ∧
    canonical_track_name "Ballarat".data = "ballarat".data ∧
    resolveMeetingId
        (buildPFMap [⟨some "VIC".data, some "Ballarat".data, some "m1".data⟩])
        "VIC".data "Sportsbet-Ballarat".data = some "m1".data := by
  decide

/-- Claim C8 (counterexample): a 500-status provider response makes the
fetch raise (`raise_for_status`), it is NOT treated as an empty meeting
map. -/
theorem pf_fetch_non2xx_raises_cex :
    fetch_pf_meetings ⟨500, []⟩ = FetchOutcome.httpError 500 ∧
    fetch_pf_meetings ⟨500, []⟩ ≠ FetchOutcome.ok [] := by
  decide

/-- Claim C8 (amended): an empty payload on a successful (2xx) status
yields the empty provider map, but any non-2xx status raises an HTTP
status error instead of being treated as "no meetings". -/
theorem pf_fetch_status_semantics (resp : PFResponse) :
    (200 ≤ resp.status ∧ resp.status < 300 → resp.payload = [] →
      fetch_pf_meetings resp = FetchOutcome.ok []) ∧
    (¬(200 ≤ resp.status ∧ resp.status < 300) →
      fetch_pf_meetings resp = FetchOutcome.httpError resp.status) := by
  constructor
  · intro h hp
    simp [fetch_pf_meetings, h, hp, buildPFMap]
  · intro h
    simp [fetch_pf_meetings, h]

end RA

namespace RA

/-- Digit characters are never whitespace. -/
lemma isDigit_not_space (c : Char) (h : c.isDigit = true) : isSpaceChar c = false := by
  cases hs : isSpaceChar c
  · rfl
  · exfalso
    simp only [isSpaceChar, Bool.or_eq_true, decide_eq_true_eq] at hs
    rcases hs with ((((h1 | h1) | h1) | h1) | h1) | h1 <;> subst h1 <;>
      exact absurd h (by decide)

/-- Every member of `takeWhile p` satisfies `p`. -/
lemma mem_takeWhile_sat (p : Char → Bool) (u : Str) (c : Char)
    (h : c ∈ u.takeWhile p) : p c = true := by
  induction u with
  | nil => simp at h
  | cons a t ih =>
      rw [List.takeWhile_cons] at h
      by_cases hp : p a = true
      · rw [if_pos hp] at h
        rcases List.mem_cons.mp h with h1 | h1
        · subst h1; exact hp
        · exact ih h1
      · rw [if_neg hp] at h; simp at h

/-- `dropWhile` is the identity when no element satisfies the predicate. -/
lemma dropWhile_eq_self_of (p : Char → Bool) (s : Str)
    (h : ∀ c ∈ s, p c = false) : s.dropWhile p = s := by
  rcases s with _ | ⟨a, t⟩
  · rfl
  · rw [List.dropWhile_cons,
      if_neg (by rw [h a (List.mem_cons_self a t)]; exact Bool.false_ne_true)]

/-- `strip` is the identity on whitespace-free strings. -/
lemma stripStr_eq_self (s : Str) (h : ∀ c ∈ s, isSpaceChar c = false) :
    stripStr s = s := by
  unfold stripStr
  rw [dropWhile_eq_self_of _ _ h,
    dropWhile_eq_self_of _ _ (fun c hc => h c (List.mem_reverse.mp hc)),
    List.reverse_reverse]

/-- On a whitespace-free string the word scanner yields the single word
`acc.reverse ++ s` (or nothing when both are empty). -/
lemma wordsAux_noSpace : ∀ (s acc : Str), (∀ c ∈ s, isSpaceChar c = false) →
    wordsAux s acc =
      if (acc.reverse ++ s).isEmpty then [] else [acc.reverse ++ s]
  | [], acc, _ => by
      rcases acc with _ | ⟨a, t⟩
      · rfl
      · simp [wordsAux]
  | c :: rest, acc, h => by
      have hc := h c (List.mem_cons_self c rest)
      have hrest : ∀ x ∈ rest, isSpaceChar x = false :=
        fun x hx => h x (List.mem_cons_of_mem _ hx)
      have ih := wordsAux_noSpace rest (c :: acc) hrest
      simp only [wordsAux, hc, Bool.false_eq_true, if_false] at *
      rw [ih, List.reverse_cons, List.append_assoc, List.singleton_append]

/-- Collapsing whitespace is the identity on non-empty whitespace-free
strings. -/
lemma collapseWS_eq_self (s : Str) (hne : s ≠ [])
    (h : ∀ c ∈ s, isSpaceChar c = false) : collapseWS s = s := by
  unfold collapseWS wordsOf
  rw [wordsAux_noSpace s [] h]
  rcases s with _ | ⟨a, t⟩
  · exact absurd rfl hne
  · simp only [List.reverse_nil, List.nil_append]
    rw [if_neg (by simp)]
    rfl

/-- `_s` (strip + collapse) is the identity on non-empty whitespace-free
strings. -/
lemma pyS_some (s : Str) (hne : s ≠ []) (hns : ∀ c ∈ s, isSpaceChar c = false) :
    pyS (some s) = s := by
  show collapseWS (stripStr s) = s
  rw [stripStr_eq_self s hns, collapseWS_eq_self s hne hns]

/-- A property lifts through `<|>` on `Option` when it holds of both arms. -/
lemma orElse_shape {α : Type} (a b : Option α) (P : α → Prop) (g : α)
    (h : (a <|> b) = some g)
    (ha : ∀ x, a = some x → P x) (hb : ∀ x, b = some x → P x) : P g := by
  cases a with
  | some x =>
      rw [Option.some_orElse] at h
      injection h with h
      exact h ▸ ha x rfl
  | none =>
      rw [Option.none_orElse] at h
      exact hb g h

/-- A property of every per-position match lifts through the search
driver. -/
lemma searchAux_lift {α : Type} (m : Option Char → Str → Option α)
    (P : α → Prop) (hm : ∀ prev u g, m prev u = some g → P g) :
    ∀ (u : Str) (prev : Option Char) (g : α),
      searchAux m prev u = some g → P g := by
  intro u
  induction u with
  | nil =>
      intro prev g h
      simp only [searchAux] at h
      exact hm _ _ _ h
  | cons c rest ih =>
      intro prev g h
      simp only [searchAux] at h
      exact orElse_shape _ _ P g h (fun x hx => hm _ _ _ hx)
        (fun x hx => ih _ _ hx)

/-- A property of every per-position match lifts through `re.search`. -/
lemma searchRE_lift {α : Type} (m : Option Char → Str → Option α)
    (P : α → Prop) (hm : ∀ prev u g, m prev u = some g → P g)
    (u : Str) (g : α) (h : searchRE m u = some g) : P g := by
  unfold searchRE at h
  exact searchAux_lift m P hm u none g h

/-- A fixed whitespace-free prefix glued to a whitespace-free capture is a
non-empty whitespace-free string. -/
lemma prefixed_shape (p g : Str)
    (hp : p ≠ [] ∧ ∀ c ∈ p, isSpaceChar c = false)
    (hg : ∀ c ∈ g, isSpaceChar c = false) :
    p ++ g ≠ [] ∧ ∀ c ∈ p ++ g, isSpaceChar c = false := by
  constructor
  · intro hc
    exact hp.1 (List.append_eq_nil.mp hc).1
  · intro c hc
    rcases List.mem_append.mp hc with h1 | h1
    · exact hp.2 c h1
    · exact hg c h1

/-- The GROUP digit capture is never whitespace. -/
lemma groupDigitCheck_char (t : Str) (c : Char)
    (h : groupDigitCheck t = some c) : isSpaceChar c = false := by
  rcases t with _ | ⟨a, rest⟩
  · exact Option.noConfusion h
  · simp only [groupDigitCheck] at h
    split at h
    · rename_i hcond
      injection h with h
      subst h
      simp only [Bool.and_eq_true, Bool.or_eq_true, decide_eq_true_eq] at hcond
      rcases hcond.1 with (h1 | h1) | h1 <;> subst h1 <;> decide
    · exact Option.noConfusion h

/-- The capture of `_RE_GROUP` at one position is never whitespace. -/
lemma matchGroupAt_char (prev : Option Char) (u : Str) (c : Char)
    (h : matchGroupAt prev u = some c) : isSpaceChar c = false := by
  unfold matchGroupAt at h
  by_cases hp : prevOkWB prev = true
  · rw [if_pos hp] at h
    revert h
    cases hl : litCI "GROUP".data u with
    | none => intro h; exact Option.noConfusion h
    | some r =>
        intro h
        dsimp only at h
        refine orElse_shape _ _ (fun x => isSpaceChar x = false) _ h ?_ ?_
        · intro x hx
          rcases r with _ | ⟨a, t⟩
          · exact Option.noConfusion hx
          · dsimp only at hx
            by_cases hs2 : isSpaceChar a = true
            · rw [if_pos hs2] at hx
              exact groupDigitCheck_char _ _ hx
            · rw [if_neg hs2] at hx
              exact Option.noConfusion hx
        · intro x hx
          exact groupDigitCheck_char _ _ hx
  · rw [if_neg hp] at h
    exact Option.noConfusion h

/-- The CLASS digit capture is never whitespace. -/
lemma classDigit1_char (t : Str) (c : Char)
    (h : classDigit1 t = some c) : isSpaceChar c = false := by
  rcases t with _ | ⟨a, rest⟩
  · exact Option.noConfusion h
  · simp only [classDigit1] at h
    split at h
    · rename_i hcond
      injection h with h
      subst h
      simp only [Bool.and_eq_true] at hcond
      exact isDigit_not_space _ hcond.1
    · exact Option.noConfusion h

/-- The capture of `_RE_CLASSN` at one position is never whitespace. -/
lemma matchClassNAt_char (prev : Option Char) (u : Str) (c : Char)
    (h : matchClassNAt prev u = some c) : isSpaceChar c = false := by
  unfold matchClassNAt at h
  by_cases hp : prevOkWB prev = true
  · rw [if_pos hp] at h
    revert h
    cases hl : litCI "CLASS".data u with
    | none => intro h; exact Option.noConfusion h
    | some r =>
        intro h
        dsimp only at h
        refine orElse_shape _ _ (fun x => isSpaceChar x = false) _ h ?_ ?_
        · intro x hx
          rcases r with _ | ⟨a, t⟩
          · exact Option.noConfusion hx
          · dsimp only at hx
            by_cases hs2 : isSpaceChar a = true
            · rw [if_pos hs2] at hx
              exact classDigit1_char _ _ hx
            · rw [if_neg hs2] at hx
              exact Option.noConfusion hx
        · intro x hx
          exact classDigit1_char _ _ hx
  · rw [if_neg hp] at h
    exact Option.noConfusion h

/-- The `(\d\d)` capture of `_RE_BM` is non-empty and whitespace-free. -/
lemma bmDigits2_shape (t : Str) (g : Str) (h : bmDigits2 t = some g) :
    g ≠ [] ∧ ∀ c ∈ g, isSpaceChar c = false := by
  rcases t with _ | ⟨d1, t1⟩
  · exact Option.noConfusion h
  · rcases t1 with _ | ⟨d2, rest⟩
    · exact Option.noConfusion h
    · simp only [bmDigits2] at h
      split at h
      · rename_i hcond
        injection h with h
        subst h
        simp only [Bool.and_eq_true] at hcond
        refine ⟨by simp, ?_⟩
        intro c hc
        rcases List.mem_cons.mp hc with h1 | h1
        · subst h1; exact isDigit_not_space _ hcond.1.1
        · rcases List.mem_cons.mp h1 with h2 | h2
          · subst h2; exact isDigit_not_space _ hcond.1.2
          · simp at h2
      · exact Option.noConfusion h

/-- The capture of `_RE_BM` at one position is non-empty and
whitespace-free. -/
lemma matchBMAt_shape (prev : Option Char) (u : Str) (g : Str)
    (h : matchBMAt prev u = some g) :
    g ≠ [] ∧ ∀ c ∈ g, isSpaceChar c = false := by
  unfold matchBMAt at h
  by_cases hp : prevOkWB prev = true
  · rw [if_pos hp] at h
    revert h
    cases hl : litCI "BM".data u with
    | none => intro h; exact Option.noConfusion h
    | some r =>
        intro h
        dsimp only at h
        refine orElse_shape _ _
          (fun x : Str => x ≠ [] ∧ ∀ c ∈ x, isSpaceChar c = false) _ h ?_ ?_
        · intro x hx
          rcases r with _ | ⟨a, t⟩
          · exact Option.noConfusion hx
          · dsimp only at hx
            by_cases hs2 : isSpaceChar a = true
            · rw [if_pos hs2] at hx
              exact bmDigits2_shape _ _ hx
            · rw [if_neg hs2] at hx
              exact Option.noConfusion hx
        · intro x hx
          exact bmDigits2_shape _ _ hx
  · rw [if_neg hp] at h
    exact Option.noConfusion h

/-- The `(\d+\+?)` capture is non-empty and whitespace-free. -/
lemma benchDigits_shape (u : Str) (g : Str) (h : benchDigits u = some g) :
    g ≠ [] ∧ ∀ c ∈ g, isSpaceChar c = false := by
  unfold benchDigits at h
  dsimp only at h
  split at h
  · exact Option.noConfusion h
  · rename_i hcond
    have hrun : ∀ c ∈ u.takeWhile Char.isDigit, isSpaceChar c = false :=
      fun c hc => isDigit_not_space c (mem_takeWhile_sat _ _ _ hc)
    have hne : u.takeWhile Char.isDigit ≠ [] :=
      fun hnil => hcond (by rw [hnil]; rfl)
    split at h
    · injection h with h
      subst h
      refine ⟨?_, ?_⟩
      · intro hnil
        exact hne (List.append_eq_nil.mp hnil).1
      · intro c hc
        rcases List.mem_append.mp hc with h1 | h1
        · exact hrun c h1
        · rcases List.mem_cons.mp h1 with h2 | h2
          · subst h2; decide
          · simp at h2
    · injection h with h
      subst h
      exact ⟨hne, hrun⟩

/-- The capture of the `Benchmark` alternative is non-empty and
whitespace-free. -/
lemma benchWordAlt_shape (u : Str) (g : Str) (h : benchWordAlt u = some g) :
    g ≠ [] ∧ ∀ c ∈ g, isSpaceChar c = false := by
  unfold benchWordAlt at h
  revert h
  cases hl : litCI "Benchmark".data u with
  | none => intro h; exact Option.noConfusion h
  | some r =>
      intro h
      dsimp only at h
      exact benchDigits_shape _ _ h

/-- The capture of `_RE_BENCHMARK` at one position is non-empty and
whitespace-free. -/
lemma matchBenchmarkAt_shape (prev : Option Char) (u : Str) (g : Str)
    (h : matchBenchmarkAt prev u = some g) :
    g ≠ [] ∧ ∀ c ∈ g, isSpaceChar c = false := by
  unfold matchBenchmarkAt at h
  by_cases hp : prevOkWB prev = true
  · rw [if_pos hp] at h
    revert h
    cases hl : litCI "BM".data u with
    | none =>
        intro h
        dsimp only at h
        exact benchWordAlt_shape _ _ h
    | some r =>
        intro h
        dsimp only at h
        revert h
        cases hb : benchDigits (r.dropWhile isSpaceChar) with
        | some g2 =>
            intro h
            dsimp only at h
            injection h with h
            exact h ▸ benchDigits_shape _ _ hb
        | none =>
            intro h
            dsimp only at h
            exact benchWordAlt_shape _ _ h
  · rw [if_neg hp] at h
    exact Option.noConfusion h

/-- The capture of `_RE_BASE_RATING` at one position is non-empty and
whitespace-free. -/
lemma matchBaseRatingAt_shape (prev : Option Char) (u : Str) (g : Str)
    (h : matchBaseRatingAt prev u = some g) :
    g ≠ [] ∧ ∀ c ∈ g, isSpaceChar c = false := by
  unfold matchBaseRatingAt at h
  by_cases hp : prevOkWB prev = true
  · rw [if_pos hp] at h
    revert h
    cases h1 : litCI "Base".data u with
    | none => intro h; exact Option.noConfusion h
    | some r =>
        intro h
        dsimp only at h
        revert h
        cases h2 : litCI "Rating".data (r.dropWhile isSpaceChar) with
        | none => intro h; exact Option.noConfusion h
        | some r2 =>
            intro h
            dsimp only at h
            split at h
            · exact Option.noConfusion h
            · rename_i hcond
              injection h with h
              subst h
              refine ⟨fun hnil => hcond (by rw [hnil]; rfl), ?_⟩
              intro c hc
              exact isDigit_not_space c (mem_takeWhile_sat _ _ _ hc)
  · rw [if_neg hp] at h
    exact Option.noConfusion h

/-- The capture of `_RE_RTG` at one position is non-empty and
whitespace-free. -/
lemma matchRtgAt_shape (prev : Option Char) (u : Str) (g : Str)
    (h : matchRtgAt prev u = some g) :
    g ≠ [] ∧ ∀ c ∈ g, isSpaceChar c = false := by
  unfold matchRtgAt at h
  by_cases hp : prevOkWB prev = true
  · rw [if_pos hp] at h
    revert h
    cases hl : litCI "RTG".data u with
    | none => intro h; exact Option.noConfusion h
    | some r =>
        intro h
        dsimp only at h
        exact benchDigits_shape _ _ h
  · rw [if_neg hp] at h
    exact Option.noConfusion h

/-- The capture of `_RE_CLASSNUM` at one position is non-empty and
whitespace-free. -/
lemma matchClassNumAt_shape (prev : Option Char) (u : Str) (g : Str)
    (h : matchClassNumAt prev u = some g) :
    g ≠ [] ∧ ∀ c ∈ g, isSpaceChar c = false := by
  unfold matchClassNumAt at h
  by_cases hp : prevOkWB prev = true
  · rw [if_pos hp] at h
    revert h
    cases hl : litCI "Class".data u with
    | none => intro h; exact Option.noConfusion h
    | some r =>
        intro h
        dsimp only at h
        split at h
        · rename_i hcond
          injection h with h
          subst h
          simp only [Bool.and_eq_true] at hcond
          constructor
          · intro hnil
            have h1 := hcond.1
            rw [hnil] at h1
            exact absurd h1 (by decide)
          · intro c hc
            exact isDigit_not_space c (mem_takeWhile_sat _ _ _ hc)
        · exact Option.noConfusion h
  · rw [if_neg hp] at h
    exact Option.noConfusion h

/-- Every class value `_pick_class` emits is a non-empty whitespace-free
token (`G1`-`G3`, `Listed`, `BM` + digits, `Maiden`, `CL` + digit, or
`Open`). -/
lemma pickClass_shape (block title : Str) (s : Str)
    (h : pickClass block title = some s) :
    s ≠ [] ∧ ∀ c ∈ s, isSpaceChar c = false := by
  unfold pickClass at h
  revert h
  cases hg : searchGroup block with
  | some g =>
      intro h
      dsimp only at h
      injection h with h
      subst h
      refine ⟨by simp, ?_⟩
      intro c hc
      have hgc : isSpaceChar g = false :=
        searchRE_lift matchGroupAt (fun x => isSpaceChar x = false)
          matchGroupAt_char block g hg
      rcases List.mem_cons.mp hc with h1 | h1
      · subst h1; decide
      · rcases List.mem_cons.mp h1 with h2 | h2
        · subst h2; exact hgc
        · simp at h2
  | none =>
      intro h
      dsimp only at h
      split at h
      · injection h with h
        subst h
        exact ⟨by decide, by decide⟩
      · revert h
        cases hbm : searchRE matchBMAt (upperStr title) <|>
            searchRE matchBenchmarkAt (upperStr title) with
        | some g =>
            intro h
            dsimp only at h
            injection h with h
            subst h
            have hg2 : g ≠ [] ∧ ∀ c ∈ g, isSpaceChar c = false :=
              orElse_shape _ _ _ g hbm
                (fun x hx => searchRE_lift matchBMAt _ matchBMAt_shape
                  (upperStr title) x hx)
                (fun x hx => searchRE_lift matchBenchmarkAt _
                  matchBenchmarkAt_shape (upperStr title) x hx)
            exact prefixed_shape _ _ (by decide) hg2.2
        | none =>
            intro h
            dsimp only at h
            split at h
            · injection h with h
              subst h
              exact ⟨by decide, by decide⟩
            · revert h
              cases hcn : searchRE matchClassNAt (upperStr title) with
              | some c =>
                  intro h
                  dsimp only at h
                  injection h with h
                  subst h
                  have hc2 : isSpaceChar c = false :=
                    searchRE_lift matchClassNAt _ matchClassNAt_char
                      (upperStr title) c hcn
                  refine prefixed_shape _ _ (by decide) ?_
                  intro x hx
                  rcases List.mem_cons.mp hx with h2 | h2
                  · subst h2; exact hc2
                  · simp at h2
              | none =>
                  intro h
                  dsimp only at h
                  split at h
                  · injection h with h
                    subst h
                    exact ⟨by decide, by decide⟩
                  · exact Option.noConfusion h

/-- Every class value `_derive_bm_or_class_from_text` emits is a
non-empty whitespace-free token (`BM` or `CL` + digits). -/
lemma deriveBmOrClass_shape (txt : Str) (s : Str)
    (h : deriveBmOrClass txt = some s) :
    s ≠ [] ∧ ∀ c ∈ s, isSpaceChar c = false := by
  unfold deriveBmOrClass at h
  dsimp only at h
  revert h
  cases h1 : searchRE matchBaseRatingAt (stripStr txt) with
  | some g =>
      intro h
      dsimp only at h
      injection h with h
      subst h
      exact prefixed_shape _ _ (by decide)
        (searchRE_lift matchBaseRatingAt _ matchBaseRatingAt_shape _ g h1).2
  | none =>
      intro h
      dsimp only at h
      revert h
      cases h2 : searchRE matchRtgAt (stripStr txt) with
      | some g =>
          intro h
          dsimp only at h
          injection h with h
          subst h
          exact prefixed_shape _ _ (by decide)
            (searchRE_lift matchRtgAt _ matchRtgAt_shape _ g h2).2
      | none =>
          intro h
          dsimp only at h
          revert h
          cases h3 : searchRE matchBenchmarkAt (stripStr txt) with
          | some g =>
              intro h
              dsimp only at h
              injection h with h
              subst h
              exact prefixed_shape _ _ (by decide)
                (searchRE_lift matchBenchmarkAt _ matchBenchmarkAt_shape
                  _ g h3).2
          | none =>
              intro h
              dsimp only at h
              revert h
              cases h4 : searchRE matchClassNumAt (stripStr txt) with
              | some g =>
                  intro h
                  dsimp only at h
                  injection h with h
                  subst h
                  exact prefixed_shape _ _ (by decide)
                    (searchRE_lift matchClassNumAt _ matchClassNumAt_shape
                      _ g h4).2
              | none =>
                  intro h
                  dsimp only at h
                  exact Option.noConfusion h

/-- Every class value `_derive_class_near_race` emits is a non-empty
whitespace-free token. -/
lemma deriveClassNearRace_shape (html : Str) (n : Nat) (s : Str)
    (h : deriveClassNearRace html n = some s) :
    s ≠ [] ∧ ∀ c ∈ s, isSpaceChar c = false := by
  unfold deriveClassNearRace at h
  split at h
  · exact Option.noConfusion h
  · revert h
    cases hs2 : searchRaceNear (Nat.repr n).data html with
    | some suf =>
        intro h
        dsimp only at h
        exact deriveBmOrClass_shape _ _ h
    | none =>
        intro h
        dsimp only at h
        exact Option.noConfusion h

/-- The class field of the row built for one block is `_pick_class` of
the block and the normalized title. -/
lemma rowOfSeed_race_class (dk sk tk : Option Str) (url : Str)
    (b : RaceBlockSeed) :
    (rowOfSeed dk sk tk url b).race_class =
      pickClass b.block (normalizeTitle b.titleRaw) := rfl

/-- The class field after `_postprocess_rows`: the derived BM/CL value if
any, else the parser's value. -/
lemma postRow_race_class (url html : Str) (r : RaceRow) :
    (postRow url html r).race_class =
      (match (match deriveBmOrClass (orEmpty r.description) with
              | some d => some d
              | none => if r.race_no = 0 then none
                        else deriveClassNearRace html r.race_no) with
       | some d => some d
       | none => r.race_class) := rfl

/-- `_postprocess_rows` preserves the class-shape invariant: if every
class the input row can carry is a non-empty whitespace-free token, so is
every class of the output row. -/
lemma postRow_class_shape (url html : Str) (r : RaceRow)
    (hr : ∀ s, r.race_class = some s →
      s ≠ [] ∧ ∀ c ∈ s, isSpaceChar c = false)
    (s : Str) (h : (postRow url html r).race_class = some s) :
    s ≠ [] ∧ ∀ c ∈ s, isSpaceChar c = false := by
  rw [postRow_race_class] at h
  revert h
  cases hd : deriveBmOrClass (orEmpty r.description) with
  | some d =>
      intro h
      dsimp only at h
      injection h with h
      exact h ▸ deriveBmOrClass_shape _ _ hd
  | none =>
      intro h
      dsimp only at h
      revert h
      by_cases h0 : r.race_no = 0
      · rw [if_pos h0]
        intro h
        dsimp only at h
        exact hr s h
      · rw [if_neg h0]
        cases hnc : deriveClassNearRace html r.race_no with
        | some d =>
            intro h
            dsimp only at h
            injection h with h
            exact h ▸ deriveClassNearRace_shape _ _ _ hnc
        | none =>
            intro h
            dsimp only at h
            exact hr s h

/-- Every class value of a row in `parse_program`'s output is a
non-empty whitespace-free token. -/
lemma parse_program_class_shape (html url : Str) (r : RaceRow)
    (hr : r ∈ parse_program html url) (s : Str)
    (hs : r.race_class = some s) :
    s ≠ [] ∧ ∀ c ∈ s, isSpaceChar c = false := by
  simp only [parse_program, postprocessRows, List.mem_map] at hr
  obtain ⟨r0, ⟨b, hb, hseed⟩, hpost⟩ := hr
  subst hseed
  subst hpost
  refine postRow_class_shape url html _ ?_ s hs
  intro t ht
  rw [rowOfSeed_race_class] at ht
  exact pickClass_shape _ _ t ht

/-- The class field of `_normalize_rows` applied to one row, written out. -/
lemma normalizeRow_race_class (d : Option Str) (r : RaceRow) :
    (normalizeRow d r).race_class =
      (if (pyS r.race_class).isEmpty ||
          lowerStr (pyS r.race_class) ∈ replaceableClasses then
        match inferClassFromText
            (stripStr (pyS r.description ++ ' ' :: pyS r.bonus)) with
        | some inf => some inf
        | none => if (pyS r.race_class).isEmpty then none else r.race_class
      else r.race_class) := rfl

/-- `_normalize_rows` keeps the class of a row whose class is a non-empty
whitespace-free token outside the replaceable set. -/
lemma normalizeRow_class_keep (d : Option Str) (r : RaceRow) (s : Str)
    (hs : r.race_class = some s) (hne : s ≠ [])
    (hns : ∀ c ∈ s, isSpaceChar c = false)
    (hrep : lowerStr s ∉ replaceableClasses) :
    (normalizeRow d r).race_class = r.race_class := by
  have hpy : pyS r.race_class = s := by rw [hs]; exact pyS_some s hne hns
  have hcond : ¬(((pyS r.race_class).isEmpty ||
      lowerStr (pyS r.race_class) ∈ replaceableClasses) = true) := by
    rw [hpy]
    intro hcond
    simp only [Bool.or_eq_true] at hcond
    rcases hcond with h1 | h1
    · rcases s with _ | ⟨a, t⟩
      · exact hne rfl
      · exact absurd h1 (by simp)
    · exact hrep (of_decide_eq_true h1)
  rw [normalizeRow_race_class, if_neg hcond]

/-- Claim C10: every row produced by the program parser whose class value
is non-empty and differs, case-insensitively, from all of `"open"`,
`"no restrictions"` and `"no class restriction"` comes out of the
harvester's normalization with its class field unchanged — the parser's
class values are single whitespace-free tokens, on which `_s` is the
identity, so the re-inference guard cannot fire on them; and the
normalization is a per-row map (`row = dict(r)`): each output row is a
fresh value computed from its own input row alone, never a mutation of
the parser's rows. -/
theorem normalize_preserves_parser_class (html url key : Str) (d : Option Str) :
    (∀ r ∈ parse_program html url, ∀ s, r.race_class = some s → s ≠ [] →
        lowerStr s ∉ replaceableClasses →
        (normalizeRow d r).race_class = r.race_class) ∧
    normalize_rows (parse_program html url) key =
      (parse_program html url).map (normalizeRow (dateFromKey key)) := by
  constructor
  · intro r hr s hs hne hrep
    have hshape := parse_program_class_shape html url r hr s hs
    exact normalizeRow_class_keep d r s hs hne hshape.2 hrep
  · rfl

end RA

namespace RA

/-- Claim C5: the precedence of `_pick_class` — a block Group signal wins
outright; then block Listed; then a title BM/Benchmark capture; then
title Maiden; then title Class-N; `"Open"` is emitted exactly when, all
of those being absent, the padded uppercased title contains `" OPEN "` or
the block states no class restriction; otherwise the class is null. -/
theorem class_resolution_precedence (block title : Str) :
    (∀ g, searchGroup block = some g → pickClass block title = some ['G', g]) ∧
    (searchGroup block = none → searchWord "LISTED".data block = true →
      pickClass block title = some "Listed".data) ∧
    (searchGroup block = none → searchWord "LISTED".data block = false →
      ∀ g, (searchRE matchBMAt (upperStr title) <|>
            searchRE matchBenchmarkAt (upperStr title)) = some g →
      pickClass block title = some ("BM".data ++ g)) ∧
    (searchGroup block = none → searchWord "LISTED".data block = false →
      (searchRE matchBMAt (upperStr title) <|>
        searchRE matchBenchmarkAt (upperStr title)) = none →
      searchWord "MAIDEN".data (upperStr title) = true →
      pickClass block title = some "Maiden".data) ∧
    (searchGroup block = none → searchWord "LISTED".data block = false →
      (searchRE matchBMAt (upperStr title) <|>
        searchRE matchBenchmarkAt (upperStr title)) = none →
      searchWord "MAIDEN".data (upperStr title) = false →
      ∀ c, searchRE matchClassNAt (upperStr title) = some c →
      pickClass block title = some ("CL".data ++ [c])) ∧
    (searchGroup block = none → searchWord "LISTED".data block = false →
      (searchRE matchBMAt (upperStr title) <|>
        searchRE matchBenchmarkAt (upperStr title)) = none →
      searchWord "MAIDEN".data (upperStr title) = false →
      searchRE matchClassNAt (upperStr title) = none →
      (pickClass block title = some "Open".data ↔
        (containsStr " OPEN ".data (' ' :: (upperStr title ++ [' '])) = true ∨
          searchNoRestriction "class".data block = true))) ∧
    (searchGroup block = none → searchWord "LISTED".data block = false →
      (searchRE matchBMAt (upperStr title) <|>
        searchRE matchBenchmarkAt (upperStr title)) = none →
      searchWord "MAIDEN".data (upperStr title) = false →
      searchRE matchClassNAt (upperStr title) = none →
      containsStr " OPEN ".data (' ' :: (upperStr title ++ [' '])) = false →
      searchNoRestriction "class".data block = false →
      pickClass block title = none) := by
  refine ⟨?_, ?_, ?_, ?_, ?_, ?_, ?_⟩
  · intro g hg; simp [pickClass, hg]
  · intro h1 h2; simp [pickClass, h1, h2]
  · intro h1 h2 g h3; simp [pickClass, h1, h2, h3]
  · intro h1 h2 h3 h4; simp [pickClass, h1, h2, h3, h4]
  · intro h1 h2 h3 h4 c h5; simp [pickClass, h1, h2, h3, h4, h5]
  · intro h1 h2 h3 h4 h5
    simp only [pickClass, h1, h2, h3, h4, h5]
    constructor
    · intro h
      by_contra hc
      push_neg at hc
      simp [hc.1, hc.2] at h
    · intro h
      rcases h with h | h <;> simp [h]
  · intro h1 h2 h3 h4 h5 h6 h7; simp [pickClass, h1, h2, h3, h4, h5, h6, h7]

end RA


namespace RA

/-! ## Support lemmas: what the PF canonical map contains -/

/-- The meeting id a payload entry contributes under key `k` (if kept and
keyed by `k`). -/
def entryVal (k : Str × Str) (e : PFMeeting) : Option Str :=
  if pfEntryKept e ∧ pfEntryKey e = k then e.meetingId else none

/-- The value the dict ends up holding for `k`: the LAST contributing
entry wins (later assignments overwrite). -/
def lastVal (k : Str × Str) : List PFMeeting → Option Str
  | [] => none
  | e :: t =>
      match lastVal k t with
      | some v => some v
      | none => entryVal k e

theorem mapGet_insert (l : PFMap) (k k' : Str × Str) (v : Str) :
    mapGet (mapInsert l k v) k' = if k' = k then some v else mapGet l k' := by
  induction l with
  | nil =>
      by_cases h : k' = k
      · simp [mapInsert, mapGet, h]
      · simp [mapInsert, mapGet, h, Ne.symm h]
  | cons p t ih =>
      obtain ⟨pk, pv⟩ := p
      by_cases h : pk = k
      · subst h
        by_cases h2 : k' = pk
        · simp [mapInsert, mapGet, h2]
        · simp [mapInsert, mapGet, h2, Ne.symm h2]
      · by_cases h2 : pk = k'
        · subst h2
          have hk : ¬(pk = k) := h
          simp [mapInsert, mapGet, h, Ne.symm hk]
        · simp [mapInsert, mapGet, h, h2, ih]

theorem step_get (acc : PFMap) (e : PFMeeting) (k : Str × Str) :
    mapGet (buildPFMapStep acc e) k =
      match entryVal k e with
      | some v => some v
      | none => mapGet acc k := by
  unfold buildPFMapStep entryVal
  by_cases hs : upperStr (orEmpty e.trackState) ∈ AUS_STATES
  · simp only [if_pos hs]
    cases hmid : e.meetingId with
    | none =>
        have hnk : ¬(pfEntryKept e ∧ pfEntryKey e = k) := by
          rintro ⟨⟨_, mid, hm, _⟩, _⟩
          rw [hmid] at hm
          exact Option.noConfusion hm
        simp [hnk]
    | some mid =>
        by_cases hemp : mid.isEmpty
        · have hnk : ¬(pfEntryKept e ∧ pfEntryKey e = k) := by
            rintro ⟨⟨_, mid', hm', hne⟩, _⟩
            rw [hmid] at hm'
            cases hm'
            exact hne (List.isEmpty_iff.mp hemp)
          simp [hemp, hnk]
        · simp only [if_neg hemp, mapGet_insert]
          by_cases hk : pfEntryKey e = k
          · have hkept : pfEntryKept e :=
              ⟨hs, mid, hmid, fun hn => by simp [hn] at hemp⟩
            rw [if_pos (show k = (upperStr (orEmpty e.trackState),
                canonical_track_name (orEmpty e.trackName)) from by rw [← hk]; rfl)]
            rw [if_pos ⟨hkept, hk⟩]
          · rw [if_neg (show ¬(k = (upperStr (orEmpty e.trackState),
                canonical_track_name (orEmpty e.trackName))) from
                fun hh => hk hh.symm)]
            rw [if_neg (show ¬(pfEntryKept e ∧ pfEntryKey e = k) from
                fun hh => hk hh.2)]
  · have hnk : ¬(pfEntryKept e ∧ pfEntryKey e = k) := fun hh => hs hh.1.1
    simp [hs, hnk]

theorem foldl_step_get (entries : List PFMeeting) :
    ∀ (acc : PFMap) (k : Str × Str),
      mapGet (entries.foldl buildPFMapStep acc) k =
        match lastVal k entries with
        | some v => some v
        | none => mapGet acc k := by
  induction entries with
  | nil => intro acc k; simp [lastVal]
  | cons e t ih =>
      intro acc k
      simp only [List.foldl_cons, lastVal]
      rw [ih]
      cases h : lastVal k t with
      | some v => simp
      | none => simp [step_get]

theorem entryVal_isSome (k : Str × Str) (e : PFMeeting) :
    (entryVal k e).isSome ↔ pfEntryKept e ∧ pfEntryKey e = k := by
  by_cases h : pfEntryKept e ∧ pfEntryKey e = k
  · obtain ⟨hst, mid, hm, hne⟩ := h.1
    unfold entryVal
    rw [if_pos h, hm]
    simp [h]
  · unfold entryVal
    rw [if_neg h]
    simp [h]

theorem entryVal_eq_some (k : Str × Str) (e : PFMeeting) (v : Str)
    (h : entryVal k e = some v) :
    pfEntryKept e ∧ pfEntryKey e = k ∧ e.meetingId = some v := by
  unfold entryVal at h
  by_cases hc : pfEntryKept e ∧ pfEntryKey e = k
  · rw [if_pos hc] at h
    exact ⟨hc.1, hc.2, h⟩
  · rw [if_neg hc] at h
    exact Option.noConfusion h

theorem lastVal_isSome (k : Str × Str) :
    ∀ l : List PFMeeting, (lastVal k l).isSome ↔ ∃ e ∈ l, (entryVal k e).isSome := by
  intro l
  induction l with
  | nil => simp [lastVal]
  | cons e t ih =>
      simp only [lastVal]
      cases h : lastVal k t with
      | some v =>
          constructor
          · intro _
            obtain ⟨e', he', hv⟩ := ih.mp (by rw [h]; rfl)
            exact ⟨e', List.mem_cons_of_mem _ he', hv⟩
          · intro _; rfl
      | none =>
          constructor
          · intro hv
            exact ⟨e, List.mem_cons_self e t, hv⟩
          · rintro ⟨e', he', hv⟩
            rcases List.mem_cons.mp he' with rfl | hmem
            · exact hv
            · have h2 := ih.mpr ⟨e', hmem, hv⟩
              rw [h] at h2
              simp at h2

theorem lastVal_eq_some (k : Str × Str) :
    ∀ (l : List PFMeeting) (v : Str), lastVal k l = some v →
      ∃ e ∈ l, entryVal k e = some v := by
  intro l
  induction l with
  | nil => intro v h; exact Option.noConfusion h
  | cons e t ih =>
      intro v h
      simp only [lastVal] at h
      cases hl : lastVal k t with
      | some w =>
          rw [hl] at h
          cases h
          obtain ⟨e', he', hv⟩ := ih _ hl
          exact ⟨e', List.mem_cons_of_mem _ he', hv⟩
      | none =>
          rw [hl] at h
          exact ⟨e, List.mem_cons_self e t, h⟩

end RA

namespace RA

/-- The provider list of the C1 counterexample: one Victorian meeting
named `"Ballarat"`. -/
def ballaratOnly : List PFMeeting :=
  [⟨some "VIC".data, some "Ballarat".data, some "m1".data⟩]

/-- Claim C1 (counterexample): the local venue `"Ballarat Synthetic"`
fails the spec's exact tier and the code's canonical lookup, has a unique
strictly-best positive token-overlap candidate (so the claim demands its
id `"m1"` be assigned), yet the code assigns nothing: no fuzzy tier
exists in the source. -/
theorem fuzzy_tier_missing_cex :
    exact_match_spec ballaratOnly "VIC".data "Ballarat Synthetic".data = none ∧
    resolveMeetingId (buildPFMap ballaratOnly) "VIC".data
      "Ballarat Synthetic".data = none ∧
    fuzzy_match_spec ballaratOnly "VIC".data "Ballarat Synthetic".data =
      some "m1".data ∧
    tiered_resolve_spec ballaratOnly "VIC".data "Ballarat Synthetic".data =
      some "m1".data := by
  decide

/-- Claim C1 (amended): the code's per-venue resolution is the canonical
lookup and nothing else — a provider id is assigned exactly when some
kept provider entry shares the `(uppercased state, canonical name)` key,
and any assigned id is the meeting id of such an entry.  Venues with no
canonical-key match are left without a provider id (reported missing);
no fuzzy token-overlap tier is consulted. -/
theorem resolution_exactly_canonical (entries : List PFMeeting) (state track : Str) :
    ((resolveMeetingId (buildPFMap entries) state track).isSome ↔
      ∃ e ∈ entries, pfEntryKept e ∧
        pfEntryKey e = (upperStr state, canonical_track_name track)) ∧
    (∀ mid, resolveMeetingId (buildPFMap entries) state track = some mid →
      ∃ e ∈ entries, pfEntryKept e ∧
        pfEntryKey e = (upperStr state, canonical_track_name track) ∧
        e.meetingId = some mid) := by
  have hres : resolveMeetingId (buildPFMap entries) state track =
      lastVal (upperStr state, canonical_track_name track) entries := by
    unfold resolveMeetingId buildPFMap
    rw [foldl_step_get]
    cases lastVal (upperStr state, canonical_track_name track) entries <;>
      simp [mapGet]
  constructor
  · rw [hres, lastVal_isSome]
    exact exists_congr (fun e => and_congr_right (fun _ => entryVal_isSome _ e))
  · intro mid h
    rw [hres] at h
    obtain ⟨e, he, hv⟩ := lastVal_eq_some _ entries mid h
    obtain ⟨h1, h2, h3⟩ := entryVal_eq_some _ e mid hv
    exact ⟨e, he, h1, h2, h3⟩

end RA

namespace RA

/-! ## Support lemmas: race numbers through the parse/normalise pipeline -/

theorem postRow_race_no (url html : Str) (r : RaceRow) :
    (postRow url html r).race_no = r.race_no := rfl

theorem normalizeRow_race_no (d : Option Str) (r : RaceRow) :
    (normalizeRow d r).race_no = r.race_no := rfl

theorem iterBlocksGo_map_num (text : Str) :
    ∀ l : List HMatch, (iterBlocksGo text l).map (·.num) = l.map (·.cap.num) := by
  intro l
  induction l with
  | nil => rfl
  | cons m t ih =>
      cases t with
      | nil => rfl
      | cons m2 t2 =>
          simp only [iterBlocksGo, List.map_cons] at ih ⊢
          rw [ih]
          rfl

theorem map_race_no_normalize (rows : List RaceRow) (d : Option Str) :
    (rows.map (normalizeRow d)).map (·.race_no) = rows.map (·.race_no) := by
  induction rows with
  | nil => rfl
  | cons r t ih => simp only [List.map_cons, normalizeRow_race_no, ih]

theorem map_race_no_post (rows : List RaceRow) (u h : Str) :
    (rows.map (postRow u h)).map (·.race_no) = rows.map (·.race_no) := by
  induction rows with
  | nil => rfl
  | cons r t ih => simp only [List.map_cons, postRow_race_no, ih]

theorem map_race_no_rowOfSeed (l : List RaceBlockSeed) (a b c : Option Str) (u : Str) :
    (l.map (rowOfSeed a b c u)).map (·.race_no) = l.map (·.num) := by
  induction l with
  | nil => rfl
  | cons s t ih => simp only [List.map_cons, ih]; rfl

/-- Claim C2 (amended): one harvest emits exactly one record per header
match of the cleaned page text, in order, carrying that header's race
number — duplicate race numbers are NOT coalesced anywhere in the
parse/normalise pipeline. -/
theorem harvest_one_row_per_header (html urlOrKey : Str) :
    (harvest_rows html urlOrKey).map (·.race_no) =
      (findHeaders (cleanText html)).map (·.cap.num) := by
  simp only [harvest_rows, normalize_rows, parse_program, postprocessRows, iterBlocks]
  rw [map_race_no_normalize, map_race_no_post, map_race_no_rowOfSeed,
    iterBlocksGo_map_num]

/-- The detail-page text of the C2 counterexample: two header matches
carrying the same race number. -/
def dupHeaderText : Str :=
  "Race 1 - A (1000 METRES) Race 1 - B (1000 METRES)".data

/-- Claim C2 (counterexample): a detail page whose text matches the race
header twice with the same number yields a harvested list with TWO
records numbered 1 — `race_no` is not unique and nothing coalesces the
duplicates. -/
theorem duplicate_race_numbers_cex :
    (harvest_rows dupHeaderText "2025Sep20,VIC,Dup".data).map (·.race_no) = [1, 1] ∧
    ¬ ((harvest_rows dupHeaderText "2025Sep20,VIC,Dup".data).map (·.race_no)).Nodup := by
  decide

end RA

namespace RA

/-! ## Support lemmas: every header-match stage shrinks the text -/

theorem dropWhile_length_le (p : Char → Bool) :
    ∀ l : Str, (l.dropWhile p).length ≤ l.length := by
  intro l
  induction l with
  | nil => simp
  | cons c t ih =>
      by_cases h : p c
      · simp only [List.dropWhile, h]
        exact le_trans ih (by simp)
      · simp [List.dropWhile, h]

theorem litCI_le : ∀ (p s r : Str), litCI p s = some r → r.length ≤ s.length := by
  intro p
  induction p with
  | nil =>
      intro s r h
      simp only [litCI, Option.some_inj] at h
      subst h
      exact le_refl _
  | cons c cs ih =>
      intro s r h
      cases s with
      | nil => exact Option.noConfusion h
      | cons a as =>
          simp only [litCI] at h
          split at h
          · exact le_trans (ih as r h) (by simp)
          · exact Option.noConfusion h

theorem closeParen_le (u r : Str) (h : closeParen u = some r) : r.length ≤ u.length := by
  unfold closeParen at h
  split at h
  · next t heq =>
      cases h
      have h1 := dropWhile_length_le isSpaceChar u
      rw [heq] at h1
      simp only [List.length_cons] at h1
      omega
  · exact Option.noConfusion h

theorem metreTail_le (u r : Str) (h : metreTail u = some r) : r.length ≤ u.length := by
  cases u with
  | nil =>
      simp only [metreTail, Option.none_orElse] at h
      exact closeParen_le [] r h
  | cons c t =>
      simp only [metreTail] at h
      by_cases hcs : (c = 'S' || c = 's') = true
      · rw [if_pos hcs] at h
        cases hcp : closeParen t with
        | some w =>
            rw [hcp] at h
            simp only [Option.some_orElse, Option.some_inj] at h
            subst h
            exact le_trans (closeParen_le t w hcp) (by simp)
        | none =>
            rw [hcp] at h
            simp only [Option.none_orElse] at h
            exact closeParen_le _ r h
      · rw [if_neg hcs] at h
        simp only [Option.none_orElse] at h
        exact closeParen_le _ r h

theorem parenDigitsTry_le (t : Nat) (u run r ds : Str)
    (h : parenDigitsTry t u run = some (ds, r)) : r.length ≤ u.length := by
  unfold parenDigitsTry at h
  split at h
  · split at h
    · next w heq =>
        cases hmt : metreTail w with
        | none => simp [hmt] at h
        | some rr =>
            rw [hmt] at h
            simp only [Option.map_some', Option.some_inj, Prod.mk.injEq] at h
            obtain ⟨-, h2⟩ := h
            subst h2
            have h1 := metreTail_le w rr hmt
            have h2 := litCI_le "METRE".data _ w heq
            have h3 := dropWhile_length_le isSpaceChar (u.drop t)
            have h4 : (u.drop t).length ≤ u.length := by
              simp [List.length_drop]
            omega
    · exact Option.noConfusion h
  · exact Option.noConfusion h

theorem parenMetresAt_le (s ds r : Str) (h : parenMetresAt s = some (ds, r)) :
    r.length ≤ s.length := by
  unfold parenMetresAt at h
  split at h
  · next s1 =>
      dsimp only at h
      cases h4 : parenDigitsTry 4 (s1.dropWhile isSpaceChar)
          ((s1.dropWhile isSpaceChar).takeWhile Char.isDigit) with
      | some q =>
          rw [h4] at h
          simp only [Option.some_orElse, Option.some_inj] at h
          subst h
          have hb := parenDigitsTry_le 4 (s1.dropWhile isSpaceChar)
            ((s1.dropWhile isSpaceChar).takeWhile Char.isDigit) r ds h4
          have h1 := dropWhile_length_le isSpaceChar s1
          simp only [List.length_cons]
          omega
      | none =>
          rw [h4] at h
          simp only [Option.none_orElse] at h
          have hb := parenDigitsTry_le 3 (s1.dropWhile isSpaceChar)
            ((s1.dropWhile isSpaceChar).takeWhile Char.isDigit) r ds h
          have h1 := dropWhile_length_le isSpaceChar s1
          simp only [List.length_cons]
          omega
  · exact Option.noConfusion h

end RA

namespace RA

theorem tryTimeDigits_le (k : Nat) (s r : Str) (h : tryTimeDigits k s = some r) :
    r.length ≤ s.length := by
  unfold tryTimeDigits at h
  split at h
  · split at h
    · next r2 heq =>
        cases h
        have h1 : (s.drop k).length = r.length + 1 := by rw [heq]; rfl
        have h2 : (s.drop k).length = s.length - k := by simp [List.length_drop]
        omega
    · exact Option.noConfusion h
  · exact Option.noConfusion h

theorem tryTime_le (s r : Str) (h : tryTime s = some r) : r.length ≤ s.length := by
  unfold tryTime at h
  split at h
  · exact Option.noConfusion h
  · next r0 heq =>
      have hr0 : r0.length ≤ s.length := by
        cases h2 : tryTimeDigits 2 s with
        | some w =>
            rw [h2] at heq
            simp only [Option.some_orElse, Option.some_inj] at heq
            subst heq
            exact tryTimeDigits_le 2 s w h2
        | none =>
            rw [h2] at heq
            simp only [Option.none_orElse] at heq
            exact tryTimeDigits_le 1 s r0 heq
      cases r0 with
      | nil => simp at h
      | cons d1 rest =>
          cases rest with
          | nil => simp at h
          | cons d2 r2 =>
              dsimp only at h
              split at h
              · cases hdw : r2.dropWhile isSpaceChar with
                | nil => rw [hdw] at h; simp at h
                | cons a rest2 =>
                    cases rest2 with
                    | nil => rw [hdw] at h; simp at h
                    | cons m r4 =>
                        rw [hdw] at h
                        dsimp only at h
                        split at h
                        · cases h
                          have h5 : (r2.dropWhile isSpaceChar).length = r4.length + 2 := by
                            rw [hdw]; rfl
                          have h6 := dropWhile_length_le isSpaceChar r2
                          have h7 := dropWhile_length_le isSpaceChar r4
                          simp only [List.length_cons] at hr0
                          omega
                        · exact Option.noConfusion h
              · exact Option.noConfusion h


theorem titleScan_le :
    ∀ (s t ds r : Str), titleScan s = some (t, ds, r) → r.length ≤ s.length := by
  intro s
  induction s with
  | nil => intro t ds r h; exact Option.noConfusion h
  | cons c rest ih =>
      intro t ds r h
      simp only [titleScan] at h
      cases hp : parenMetresAt (c :: rest) with
      | some q =>
          obtain ⟨qd, qr⟩ := q
          rw [hp] at h
          simp only [Option.some_inj, Prod.mk.injEq] at h
          obtain ⟨-, -, h3⟩ := h
          subst h3
          exact parenMetresAt_le (c :: rest) qd qr hp
      | none =>
          rw [hp] at h
          cases ht : titleScan rest with
          | none => simp [ht] at h
          | some q =>
              obtain ⟨qt, qds, qr⟩ := q
              rw [ht] at h
              simp only [Option.some_inj, Prod.mk.injEq] at h
              obtain ⟨-, -, h3⟩ := h
              subst h3
              exact le_trans (ih qt qds qr ht) (by simp)

theorem headerNumSplit_le (s2 numDs r : Str) (h : headerNumSplit s2 = some (numDs, r)) :
    r.length ≤ s2.length := by
  unfold headerNumSplit at h
  dsimp only at h
  split at h
  · exact Option.noConfusion h
  · simp only [Option.some_inj, Prod.mk.injEq] at h
    obtain ⟨-, h2⟩ := h
    subst h2
    simp [List.length_drop]

theorem headerDashSkip_le (u : Str) : (headerDashSkip u).length ≤ u.length := by
  cases u with
  | nil => exact le_refl _
  | cons c r =>
      by_cases hd : isDashChar c = true
      · have := dropWhile_length_le isSpaceChar r
        simp only [headerDashSkip, hd, if_true, List.length_cons]
        omega
      · simp [headerDashSkip, hd]

theorem matchHeaderAt_le (s : Str) (cap : HeadCap) (r : Str)
    (h : matchHeaderAt s = some (cap, r)) : r.length ≤ s.length := by
  unfold matchHeaderAt at h
  split at h
  · exact Option.noConfusion h
  · next s1 hlit =>
      split at h
      · exact Option.noConfusion h
      · next numDs s3a hnum =>
          dsimp only at h
          split at h
          · next t ds r2 hts =>
              simp only [Option.some_inj, Prod.mk.injEq] at h
              obtain ⟨-, h2⟩ := h
              subst h2
              have b1 := titleScan_le _ t ds r2 hts
              have b2 : ((tryTime (headerDashSkip (s3a.dropWhile isSpaceChar))).getD
                  (headerDashSkip (s3a.dropWhile isSpaceChar))).length ≤
                  (headerDashSkip (s3a.dropWhile isSpaceChar)).length := by
                cases htt : tryTime (headerDashSkip (s3a.dropWhile isSpaceChar)) with
                | some w =>
                    simp only [htt, Option.getD_some]
                    exact tryTime_le _ w htt
                | none => simp [htt]
              have b3 := headerDashSkip_le (s3a.dropWhile isSpaceChar)
              have b4 := dropWhile_length_le isSpaceChar s3a
              have b5 := headerNumSplit_le _ numDs s3a hnum
              have b6 := dropWhile_length_le isSpaceChar s1
              have b7 := litCI_le "Race".data s s1 hlit
              omega
          · exact Option.noConfusion h

end RA

namespace RA

/-! ## Support lemmas: the header matches are ordered and in range -/

theorem findHeadersAux_bounds :
    ∀ (fuel : Nat) (s : Str) (pos : Nat), ∀ m ∈ findHeadersAux fuel s pos,
      pos ≤ m.hs ∧ m.hs ≤ m.he ∧ m.he ≤ pos + s.length := by
  intro fuel
  induction fuel with
  | zero => intro s pos m hm; simp [findHeadersAux] at hm
  | succ n ih =>
      intro s pos m hm
      cases s with
      | nil => simp [findHeadersAux] at hm
      | cons c rest =>
          simp only [findHeadersAux] at hm
          cases hmh : matchHeaderAt (c :: rest) with
          | some q =>
              obtain ⟨cap, r⟩ := q
              rw [hmh] at hm
              dsimp only at hm
              rcases List.mem_cons.mp hm with rfl | hm2
              · simp only [List.length_cons]
                refine ⟨le_refl _, by omega, by omega⟩
              · have hb := ih r (pos + ((c :: rest).length - r.length)) m hm2
                have hr := matchHeaderAt_le (c :: rest) cap r hmh
                simp only [List.length_cons] at hb hr ⊢
                omega
          | none =>
              rw [hmh] at hm
              dsimp only at hm
              have hb := ih rest (pos + 1) m hm
              simp only [List.length_cons]
              omega

theorem findHeadersAux_chain :
    ∀ (fuel : Nat) (s : Str) (pos : Nat),
      List.Chain' (fun a b => a.he ≤ b.hs) (findHeadersAux fuel s pos) := by
  intro fuel
  induction fuel with
  | zero => intro s pos; simp [findHeadersAux]
  | succ n ih =>
      intro s pos
      cases s with
      | nil => simp [findHeadersAux]
      | cons c rest =>
          simp only [findHeadersAux]
          cases hmh : matchHeaderAt (c :: rest) with
          | some q =>
              obtain ⟨cap, r⟩ := q
              dsimp only
              refine List.chain'_cons'.mpr ⟨?_, ih r _⟩
              intro y hy
              have hmem := List.mem_of_mem_head? hy
              exact (findHeadersAux_bounds n r _ y hmem).1
          | none =>
              dsimp only
              exact ih rest (pos + 1)

theorem blocksOf_length (L : Nat) :
    ∀ l : List HMatch, (blocksOf L l).length = l.length := by
  intro l
  induction l with
  | nil => rfl
  | cons m t ih =>
      cases t with
      | nil => rfl
      | cons m2 t2 => simp only [blocksOf, List.length_cons] at ih ⊢; omega

theorem blocksOf_start_ge (L : Nat) :
    ∀ (l : List HMatch) (lo : Nat), (∀ m ∈ l, lo ≤ m.he) →
      ∀ b ∈ blocksOf L l, lo ≤ b.1 := by
  intro l
  induction l with
  | nil => intro lo _ b hb; simp [blocksOf] at hb
  | cons m t ih =>
      intro lo hlo b hb
      cases t with
      | nil =>
          simp only [blocksOf, List.mem_singleton] at hb
          subst hb
          exact hlo m (List.mem_cons_self m [])
      | cons m2 t2 =>
          simp only [blocksOf] at hb
          rcases List.mem_cons.mp hb with rfl | hb2
          · exact hlo m (List.mem_cons_self ..)
          · exact ih lo (fun x hx => hlo x (List.mem_cons_of_mem _ hx)) b hb2

theorem chain_he_lower :
    ∀ l : List HMatch, List.Chain' (fun a b => a.he ≤ b.hs) l →
      (∀ m ∈ l, m.hs ≤ m.he) →
      ∀ hd, l.head? = some hd → ∀ m ∈ l, hd.he ≤ m.he := by
  intro l
  induction l with
  | nil => intro _ _ hd h; exact Option.noConfusion h
  | cons x t ih =>
      intro hch hbo hd hhd m hm
      cases hhd
      rcases List.mem_cons.mp hm with rfl | hm2
      · exact le_refl _
      · cases t with
        | nil => simp at hm2
        | cons y t2 =>
            have hxy : x.he ≤ y.hs := (List.chain'_cons'.mp hch).1 y rfl
            have hyy : y.hs ≤ y.he := hbo y (List.mem_cons_of_mem _ (List.mem_cons_self ..))
            have hrec := ih (List.chain'_cons'.mp hch).2
              (fun z hz => hbo z (List.mem_cons_of_mem _ hz)) y rfl m hm2
            omega

theorem blocksOf_pairwise (L : Nat) :
    ∀ l : List HMatch, (∀ m ∈ l, m.hs ≤ m.he) →
      List.Chain' (fun a b => a.he ≤ b.hs) l →
      List.Pairwise (fun b1 b2 => b1.2 ≤ b2.1) (blocksOf L l) := by
  intro l
  induction l with
  | nil => intro _ _; simp [blocksOf]
  | cons m t ih =>
      intro hbo hch
      cases t with
      | nil => simp [blocksOf]
      | cons m2 t2 =>
          simp only [blocksOf]
          refine List.Pairwise.cons ?_
            (ih (fun x hx => hbo x (List.mem_cons_of_mem _ hx))
              (List.chain'_cons'.mp hch).2)
          intro b hb
          refine blocksOf_start_ge L (m2 :: t2) m2.hs ?_ b hb
          intro x hx
          have h1 := chain_he_lower (m2 :: t2) (List.chain'_cons'.mp hch).2
            (fun z hz => hbo z (List.mem_cons_of_mem _ hz)) m2 rfl x hx
          have h2 : m2.hs ≤ m2.he := hbo m2 (List.mem_cons_of_mem _ (List.mem_cons_self ..))
          omega

theorem blocks_cover (L : Nat) :
    ∀ (l : List HMatch) (p : Nat),
      (∀ m ∈ l, m.hs ≤ m.he ∧ m.he ≤ L) →
      List.Chain' (fun a b => a.he ≤ b.hs) l →
      ∀ hd, l.head? = some hd → hd.he ≤ p → p < L →
      (∀ m ∈ l, ¬(m.hs ≤ p ∧ p < m.he)) →
      (blocksOf L l).countP (fun b => decide (b.1 ≤ p ∧ p < b.2)) = 1 := by
  intro l
  induction l with
  | nil => intro p _ _ hd hhd; exact absurd hhd (by simp)
  | cons m t ih =>
      intro p hbnd hch hd hhd hhe hpL hout
      cases hhd
      cases t with
      | nil =>
          simp only [blocksOf, List.countP_cons, List.countP_nil]
          simp [hhe, hpL]
      | cons m2 t2 =>
          simp only [blocksOf, List.countP_cons]
          by_cases hp2 : p < m2.hs
          · have htail0 : (blocksOf L (m2 :: t2)).countP
                (fun b => decide (b.1 ≤ p ∧ p < b.2)) = 0 := by
              rw [List.countP_eq_zero]
              intro b hb
              have hm2he : ∀ x ∈ m2 :: t2, m2.hs ≤ x.he := by
                intro x hx
                have h1 := chain_he_lower (m2 :: t2) (List.chain'_cons'.mp hch).2
                  (fun z hz => (hbnd z (List.mem_cons_of_mem _ hz)).1) m2 rfl x hx
                have h2 : m2.hs ≤ m2.he :=
                  (hbnd m2 (List.mem_cons_of_mem _ (List.mem_cons_self ..))).1
                omega
              have hge := blocksOf_start_ge L (m2 :: t2) m2.hs hm2he b hb
              simp only [decide_eq_true_eq]
              rintro ⟨hb1, -⟩
              omega
            rw [htail0]
            simp [hhe, hp2]
          · have hm2out := hout m2 (List.mem_cons_of_mem _ (List.mem_cons_self ..))
            have hp2' : m2.he ≤ p := by
              rcases Nat.lt_or_ge p m2.he with hlt | hge
              · exact absurd ⟨Nat.le_of_not_lt hp2, hlt⟩ hm2out
              · exact hge
            have hfirst : ¬(m.he ≤ p ∧ p < m2.hs) := fun hc => hp2 hc.2
            simp only [hfirst, decide_eq_true_eq, if_neg hfirst]
            have := ih p (fun x hx => hbnd x (List.mem_cons_of_mem _ hx))
              (List.chain'_cons'.mp hch).2 m2 rfl hp2' hpL
              (fun x hx => hout x (List.mem_cons_of_mem _ hx))
            simpa using this

end RA

namespace RA

/-- Claim C3 (amended): for every cleaned text, `_iter_blocks` produces
exactly one block span per header match; the spans are pairwise
non-overlapping (in order, each ends no later than the next begins); and
every character position at or after the END OF THE FIRST header match
that lies outside all header matches belongs to exactly one block.
(Characters before the first header match belong to no block — see the
counterexample.) -/
theorem block_segmentation_tiling (text : Str) :
    (raceBlockSpans text).length = (findHeaders text).length ∧
    List.Pairwise (fun b1 b2 => b1.2 ≤ b2.1) (raceBlockSpans text) ∧
    (∀ hd, (findHeaders text).head? = some hd →
      ∀ p, hd.he ≤ p → p < text.length →
      (∀ m ∈ findHeaders text, ¬(m.hs ≤ p ∧ p < m.he)) →
      (raceBlockSpans text).countP (fun b => decide (b.1 ≤ p ∧ p < b.2)) = 1) := by
  have hbnd : ∀ m ∈ findHeaders text, m.hs ≤ m.he ∧ m.he ≤ text.length := by
    intro m hm
    have hb := findHeadersAux_bounds (text.length + 1) text 0 m hm
    exact ⟨hb.2.1, by omega⟩
  have hch := findHeadersAux_chain (text.length + 1) text 0
  refine ⟨blocksOf_length _ _, ?_, ?_⟩
  · exact blocksOf_pairwise text.length (findHeaders text)
      (fun m hm => (hbnd m hm).1) hch
  · intro hd hhd p hhe hpL hout
    exact blocks_cover text.length (findHeaders text) p hbnd hch hd hhd hhe hpL hout

/-- The text of the C3 counterexample: two characters of preamble before
the single race header. -/
def preambleText : Str := "xx Race 1 (1000 METRES)".data

/-- Claim C3 (counterexample): on a page with preamble text before its
only header, position 0 lies outside every header match yet belongs to
ZERO blocks, refuting "every character of the text outside the header
matches belongs to exactly one block". -/
theorem segmentation_preamble_cex :
    (findHeaders preambleText).length = 1 ∧
    0 < preambleText.length ∧
    (findHeaders preambleText).countP (fun m => decide (m.hs ≤ 0 ∧ 0 < m.he)) = 0 ∧
    (raceBlockSpans preambleText).countP (fun b => decide (b.1 ≤ 0 ∧ 0 < b.2)) = 0 := by
  decide

end RA

namespace RA

/-- Claim C9: when the page the walker holds on a hop is byte-identical
to the previous hop's page, its hash equals the recorded `prev_sig`, so
the hop's unchanged-page check fires and the walk returns the key set
accumulated so far (the identical page's kept keys, already accumulated
on the previous hop, add nothing) — no further hop runs regardless of
the remaining hop budget, the known-good action or the candidate list. -/
theorem walk_stops_on_identical_page (env : WalkEnv) (fuel : Nat)
    (html prevHtml : String) (advance : Option Nat) (keys : Finset String)
    (hpage : html = prevHtml) (hkept : env.kept html ⊆ keys) :
    walkLoop env (fuel + 1) html (some (env.hashFn prevHtml)) advance keys = keys := by
  subst hpage
  simp only [walkLoop, if_pos rfl]
  exact Finset.union_eq_left.mpr hkept

/-- The concrete environment of the C9 witness. -/
def envW : WalkEnv :=
  { pageKeys := fun _ => ∅
    kept := fun _ => {"k1"}
    hashFn := fun _ => 7
    maxDate := fun _ => none
    winEnd := 0
    minDate := 0
    actions := fun _ => [0]
    applyAct := fun _ _ => some "other" }

/-- Claim C9 (witness): a concrete walk state whose page repeats stops at
once with the accumulated keys. -/
theorem walk_stops_on_identical_page_witness :
    walkLoop envW 3 "page" (some (envW.hashFn "page")) none {"k1"} = {"k1"} :=
  walk_stops_on_identical_page envW 2 "page" "page" none {"k1"} rfl
    (by decide)

end RA
